import Mathlib

/-! Verification development for the Tabler-icons editor extension core
(`src/extension.ts`): insertion-ordered map semantics (JavaScript `Map`),
the bounded LRU image cache (`lruGet`, `lruSet`, `getSvgDataUrl`),
the token scanner and decoration updater (`updateDecorations`),
the decoration registry (`getDecorationForIcon`), and the catalog
loader / completion provider (`loadIconFiles`, `provideCompletionItems`). -/

namespace Tabler

/-- An insertion-ordered map (JavaScript `Map` semantics): a list of
key-value pairs in insertion order, keys unique for reachable maps. -/
abbrev JMap (α : Type) := List (String × α)

/-- JavaScript `Map.get`: value of the first entry with the given key. -/
def jsGet {α : Type} (m : JMap α) (k : String) : Option α :=
  (m.find? (fun p => p.1 == k)).map (fun p => p.2)

/-- JavaScript `Map.has`. -/
def jsHas {α : Type} (m : JMap α) (k : String) : Bool :=
  m.any (fun p => p.1 == k)

/-- JavaScript `Map.delete`: removes the first entry with the given key
(the unique one, since `Map` keys are unique). -/
def jsDelete {α : Type} (m : JMap α) (k : String) : JMap α :=
  m.eraseP (fun p => p.1 == k)

/-- JavaScript `Map.set`: updates the entry in place when the key is present
(keeping its insertion-order position), otherwise appends a new entry. -/
def jsSet {α : Type} (m : JMap α) (k : String) (v : α) : JMap α :=
  if jsHas m k then m.map (fun p => if p.1 == k then (k, v) else p)
  else m ++ [(k, v)]

/-- Keys of a map, oldest (first-inserted) first. -/
def keysOf {α : Type} (m : JMap α) : List String := m.map Prod.fst

/-! ### Basic lemmas about the map primitives -/

theorem jsGet_nil {α : Type} (k : String) : jsGet ([] : JMap α) k = none := rfl

theorem jsGet_eq_none_of_not_has {α : Type} {m : JMap α} {k : String}
    (h : jsHas m k = false) : jsGet m k = none := by
  induction m with
  | nil => rfl
  | cons p t ih =>
    simp only [jsHas, List.any_cons, Bool.or_eq_false_iff] at h
    simp only [jsGet, List.find?_cons, h.1]
    exact ih h.2

theorem jsHas_eq_true_of_get {α : Type} {m : JMap α} {k : String} {v : α}
    (h : jsGet m k = some v) : jsHas m k = true := by
  induction m with
  | nil => simp [jsGet] at h
  | cons p t ih =>
    simp only [jsGet, List.find?_cons] at h
    simp only [jsHas, List.any_cons, Bool.or_eq_true]
    cases hp : (p.1 == k) with
    | true => exact Or.inl rfl
    | false => simp only [hp] at h; exact Or.inr (ih h)

theorem jsHas_iff_mem_keys {α : Type} (m : JMap α) (k : String) :
    jsHas m k = true ↔ k ∈ keysOf m := by
  induction m with
  | nil => simp [jsHas, keysOf]
  | cons p t ih =>
    simp only [jsHas, List.any_cons, Bool.or_eq_true, keysOf, List.map_cons,
      List.mem_cons] at *
    constructor
    · rintro (h | h)
      · exact Or.inl (beq_iff_eq.mp h).symm
      · exact Or.inr (ih.mp h)
    · rintro (h | h)
      · exact Or.inl (beq_iff_eq.mpr h.symm)
      · exact Or.inr (ih.mpr h)

theorem jsHas_eq_false_iff {α : Type} (m : JMap α) (k : String) :
    jsHas m k = false ↔ k ∉ keysOf m := by
  rw [← jsHas_iff_mem_keys]
  cases jsHas m k <;> simp

theorem jsGet_isSome_iff_has {α : Type} (m : JMap α) (k : String) :
    (jsGet m k).isSome = jsHas m k := by
  induction m with
  | nil => rfl
  | cons p t ih =>
    simp only [jsGet, jsHas, List.find?_cons, List.any_cons] at *
    cases hp : (p.1 == k) with
    | true => rfl
    | false => simpa using ih

theorem jsGet_eq_none_iff {α : Type} (m : JMap α) (k : String) :
    jsGet m k = none ↔ jsHas m k = false := by
  constructor
  · intro h
    have := jsGet_isSome_iff_has m k
    rw [h] at this
    simpa using this.symm
  · exact jsGet_eq_none_of_not_has

/-- A lookup succeeds exactly on keys of the map. -/
theorem jsGet_isSome_iff_mem {α : Type} (m : JMap α) (k : String) :
    (jsGet m k).isSome = true ↔ k ∈ keysOf m := by
  rw [jsGet_isSome_iff_has]; exact jsHas_iff_mem_keys m k

/-- `find?` over an append whose first part has no match. -/
theorem find?_append_of_none {α : Type} (p : α → Bool) {l₁ : List α} (l₂ : List α)
    (h : l₁.find? p = none) : (l₁ ++ l₂).find? p = l₂.find? p := by
  induction l₁ with
  | nil => rfl
  | cons a t ih =>
    rw [List.find?_cons] at h
    cases hp : p a with
    | true => simp [hp] at h
    | false =>
      rw [hp] at h
      simp only [List.cons_append, List.find?_cons, hp]
      exact ih h

/-- A fresh key set appends the entry at the end. -/
theorem jsSet_of_not_has {α : Type} {m : JMap α} {k : String} (v : α)
    (h : jsHas m k = false) : jsSet m k v = m ++ [(k, v)] := by
  simp [jsSet, h]

/-- Deleting a key not in the map does nothing. -/
theorem jsDelete_of_not_has {α : Type} {m : JMap α} {k : String}
    (h : jsHas m k = false) : jsDelete m k = m := by
  induction m with
  | nil => rfl
  | cons p t ih =>
    simp only [jsHas, List.any_cons, Bool.or_eq_false_iff] at h
    simp only [jsDelete, List.eraseP_cons, h.1, cond_false]
    exact congrArg (p :: ·) (ih h.2)

/-- Keys after deletion, assuming the keys were unique: exactly the
other keys, in order. -/
theorem keysOf_jsDelete {α : Type} {m : JMap α} (k : String)
    (hnd : (keysOf m).Nodup) :
    keysOf (jsDelete m k) = (keysOf m).filter (fun x => x != k) := by
  induction m with
  | nil => rfl
  | cons p t ih =>
    simp only [keysOf, List.map_cons, List.nodup_cons] at hnd
    by_cases hpk : p.1 = k
    · have hp : (p.1 == k) = true := beq_iff_eq.mpr hpk
      have hfilter : (List.map Prod.fst t).filter (fun x => x != k) = List.map Prod.fst t := by
        rw [List.filter_eq_self]
        intro a ha
        have hak : a ≠ k := fun hak => absurd (hak ▸ ha) (hpk ▸ hnd.1)
        simpa using hak
      simp [jsDelete, List.eraseP_cons, hp, keysOf, List.filter_cons, hpk, hfilter]
    · have hp : (p.1 == k) = false := by simpa using hpk
      have ht := ih hnd.2
      simp only [jsDelete, keysOf] at ht
      simp [jsDelete, List.eraseP_cons, hp, keysOf, List.filter_cons, hpk, ht]

/-- After deleting `k` (unique keys), `k` is gone. -/
theorem jsHas_jsDelete_self {α : Type} {m : JMap α} (k : String)
    (hnd : (keysOf m).Nodup) : jsHas (jsDelete m k) k = false := by
  rw [jsHas_eq_false_iff, keysOf_jsDelete k hnd]
  intro hmem
  have := List.of_mem_filter hmem
  simp at this

/-- Deletion only removes entries: everything left was there before. -/
theorem mem_of_mem_jsDelete {α : Type} {m : JMap α} {k : String} {p : String × α}
    (h : p ∈ jsDelete m k) : p ∈ m :=
  List.mem_of_mem_eraseP h

/-! ### The bounded LRU image cache (`svgDataUrlCache`)

The cache is a JavaScript `Map<string, string>` from icon name to a
base64 data URL; JS `Map` iteration order is insertion order, so the
first entry is the oldest (least recently touched) one. -/

/-- The image cache: icon name mapped to its data URL, oldest entry first. -/
abbrev Cache := JMap String

/-- `SVG_CACHE_MAX` from the source. -/
def SVG_CACHE_MAX : Nat := 300

/-- `lruGet`: on a hit, deletes and re-inserts the entry (refreshing its
recency, i.e. moving it to the end) and returns its value; on a miss
returns `none` and leaves the cache untouched.  The pair is
(returned value, cache after the call). -/
def lruGet (cache : Cache) (key : String) : Option String × Cache :=
  match jsGet cache key with
  | none => (none, cache)
  | some v => (some v, jsSet (jsDelete cache key) key v)

/-- First mutation step of `lruSet`: `if (cache.has(key)) cache.delete(key)`. -/
def lruDelStep (cache : Cache) (key : String) : Cache :=
  if jsHas cache key then jsDelete cache key else cache

/-- Second mutation step of `lruSet`: `cache.set(key, val)`. -/
def lruInsStep (cache : Cache) (key val : String) : Cache :=
  jsSet (lruDelStep cache key) key val

/-- Third mutation step of `lruSet`: when the size exceeds
`SVG_CACHE_MAX`, delete the oldest key — guarded by the JavaScript
truthiness test `if (oldestKey)`, which also fails on the empty string. -/
def lruEvictStep (c : Cache) : Cache :=
  if SVG_CACHE_MAX < c.length then
    match c.head? with
    | some p => if p.1 = "" then c else jsDelete c p.1
    | none => c
  else c

/-- `lruSet`: delete the key if present, insert at the end, then evict
the oldest entry if the capacity is exceeded. -/
def lruSet (cache : Cache) (key val : String) : Cache :=
  lruEvictStep (lruInsStep cache key val)

/-- The cache contents after each of the three mutation steps of
`lruSet`, in program order. -/
def lruSetTrace (cache : Cache) (key val : String) : List Cache :=
  [lruDelStep cache key, lruInsStep cache key val, lruSet cache key val]

/-! ### Base64 encoding (`Buffer.toString("base64")`) -/

/-- The base64 alphabet. -/
def b64Alphabet : List Char :=
  "ABCDEFGHIJKLMNOPQRSTUVWXYZabcdefghijklmnopqrstuvwxyz0123456789+/".toList

/-- Character for a 6-bit group. -/
def b64Char (n : Nat) : Char := b64Alphabet.getD n '='

/-- Standard base64 of a byte sequence, with `=` padding. -/
def base64Encode : List Nat → List Char
  | [] => []
  | [a] => [b64Char (a / 4), b64Char (a % 4 * 16), '=', '=']
  | [a, b] => [b64Char (a / 4), b64Char (a % 4 * 16 + b / 16), b64Char (b % 16 * 4), '=']
  | a :: b :: c :: rest =>
    b64Char (a / 4) :: b64Char (a % 4 * 16 + b / 16) ::
      b64Char (b % 16 * 4 + c / 64) :: b64Char (c % 64) :: base64Encode rest

/-- The data URL built by `getSvgDataUrl` from the bytes of the SVG file. -/
def dataUrlOf (bytes : List Nat) : String :=
  "data:image/svg+xml;base64," ++ String.mk (base64Encode bytes)

theorem dataUrlOf_ne_empty (bytes : List Nat) : dataUrlOf bytes ≠ "" := by
  intro h
  have := congrArg String.length h
  simp [dataUrlOf, String.length_append] at this
  exact absurd this.1 (by decide)

/-! ### `getSvgDataUrl`

The file system is abstracted as a fixed function from icon name to the
bytes of `media/icons/<name>.svg`, `none` when the read throws
(missing file / I/O error).  The result pair is (cache after the call,
`some` data URL on success / `none` when the read error propagated). -/

/-- The miss path of `getSvgDataUrl`: read the SVG, encode it and store
it with `lruSet`; a failed read propagates (no cache change). -/
def readInsert (fsRead : String → Option (List Nat)) (cache : Cache)
    (iconName : String) : Cache × Option String :=
  match fsRead iconName with
  | none => (cache, none)
  | some bytes => (lruSet cache iconName (dataUrlOf bytes), some (dataUrlOf bytes))

/-- `getSvgDataUrl`: consult the LRU cache first (`if (cached) return cached`
— a JS truthiness test, so an empty cached string would be ignored),
otherwise read, encode and insert. -/
def getSvgDataUrl (fsRead : String → Option (List Nat)) (cache : Cache)
    (iconName : String) : Cache × Option String :=
  match lruGet cache iconName with
  | (some v, c) => if v = "" then readInsert fsRead c iconName else (c, some v)
  | (none, c) => readInsert fsRead c iconName

/-- The cache after a sequence of `getSvgDataUrl` calls. -/
def runOps (fsRead : String → Option (List Nat)) : Cache → List String → Cache
  | c, [] => c
  | c, k :: ks => runOps fsRead (getSvgDataUrl fsRead c k).1 ks

theorem runOps_append (fsRead : String → Option (List Nat)) (c : Cache)
    (l₁ l₂ : List String) :
    runOps fsRead c (l₁ ++ l₂) = runOps fsRead (runOps fsRead c l₁) l₂ := by
  induction l₁ generalizing c with
  | nil => rfl
  | cons k ks ih => simp only [List.cons_append, runOps]; exact ih _

/-! ### Behaviour of the LRU operations -/

theorem lruGet_miss {cache : Cache} {key : String}
    (h : jsGet cache key = none) : lruGet cache key = (none, cache) := by
  simp [lruGet, h]

theorem lruGet_hit {cache : Cache} {key v : String}
    (hnd : (keysOf cache).Nodup) (h : jsGet cache key = some v) :
    lruGet cache key = (some v, jsDelete cache key ++ [(key, v)]) := by
  simp only [lruGet, h]
  rw [jsSet_of_not_has v (jsHas_jsDelete_self key hnd)]

theorem lruSet_fresh_small {cache : Cache} {key : String} (val : String)
    (h : jsHas cache key = false) (hlen : cache.length < SVG_CACHE_MAX) :
    lruSet cache key val = cache ++ [(key, val)] := by
  have h1 : lruDelStep cache key = cache := by simp [lruDelStep, h]
  have h2 : lruInsStep cache key val = cache ++ [(key, val)] := by
    rw [lruInsStep, h1, jsSet_of_not_has val h]
  rw [lruSet, h2, lruEvictStep]
  rw [if_neg]
  simp only [List.length_append, List.length_cons, List.length_nil, Nat.not_lt]
  omega

theorem lruSet_fresh_full {cache : Cache} {key : String} (val : String)
    (h : jsHas cache key = false) (hlen : cache.length = SVG_CACHE_MAX)
    (hhead : ∀ p, cache.head? = some p → p.1 ≠ "") :
    lruSet cache key val = cache.tail ++ [(key, val)] := by
  have h1 : lruDelStep cache key = cache := by simp [lruDelStep, h]
  have h2 : lruInsStep cache key val = cache ++ [(key, val)] := by
    rw [lruInsStep, h1, jsSet_of_not_has val h]
  obtain ⟨p, t, rfl⟩ : ∃ p t, cache = p :: t := by
    cases cache with
    | nil => simp [SVG_CACHE_MAX] at hlen
    | cons p t => exact ⟨p, t, rfl⟩
  have hp1 : p.1 ≠ "" := hhead p rfl
  rw [lruSet, h2, lruEvictStep, if_pos (by
    simp only [SVG_CACHE_MAX, List.length_cons, List.length_append,
      List.length_nil] at hlen ⊢
    omega)]
  simp only [List.cons_append, List.head?_cons]
  rw [if_neg hp1]
  simp only [jsDelete, List.eraseP_cons, beq_self_eq_true, cond_true, List.tail_cons]

/-- Decomposition of a successful lookup: the map splits around the
first entry with the key, and deletion removes exactly that entry. -/
theorem get_decomp {α : Type} {m : JMap α} {k : String} {v : α}
    (h : jsGet m k = some v) :
    ∃ l₁ l₂, m = l₁ ++ (k, v) :: l₂ ∧ jsDelete m k = l₁ ++ l₂ ∧
      ∀ b ∈ l₁, (b.1 == k) = false := by
  cases hf : m.find? (fun p => p.1 == k) with
  | none => simp [jsGet, hf] at h
  | some e =>
    have hpe : (e.1 == k) = true := by simpa using List.find?_some hf
    have hmem : e ∈ m := List.mem_of_find?_eq_some hf
    obtain ⟨a, l₁, l₂, hl₁, hpa, hm, herase⟩ :=
      @List.exists_of_eraseP _ (fun p => p.1 == k) m e hmem hpe
    have hfind₁ : l₁.find? (fun p => p.1 == k) = none := List.find?_eq_none.mpr hl₁
    have hget : jsGet m k = some a.2 := by
      rw [jsGet, hm, find?_append_of_none _ _ hfind₁,
        show List.find? (fun p => p.1 == k) (a :: l₂) = some a from
          List.find?_cons_of_pos _ hpa]
      rfl
    have hav : a.2 = v := by
      rw [h] at hget
      exact (Option.some.inj hget).symm
    have hak : a.1 = k := beq_iff_eq.mp (by simpa using hpa)
    have ha : a = (k, v) := by
      obtain ⟨a1, a2⟩ := a
      simp only at hak hav
      rw [hak, hav]
    refine ⟨l₁, l₂, ?_, ?_, fun b hb => by simpa using hl₁ b hb⟩
    · rw [hm, ha]
    · rw [jsDelete, herase]

theorem length_jsDelete_of_get {α : Type} {m : JMap α} {k : String} {v : α}
    (h : jsGet m k = some v) : (jsDelete m k).length + 1 = m.length := by
  obtain ⟨l₁, l₂, hm, hd, -⟩ := get_decomp h
  rw [hd, hm]
  simp only [List.length_append, List.length_cons]
  omega

theorem jsGet_jsDelete_ne {α : Type} {m : JMap α} {k k' : String} (hne : k' ≠ k) :
    jsGet (jsDelete m k) k' = jsGet m k' := by
  induction m with
  | nil => rfl
  | cons p t ih =>
    cases hp : (p.1 == k) with
    | true =>
      have hpk : p.1 = k := beq_iff_eq.mp hp
      have : (p.1 == k') = false := by simp [hpk, Ne.symm hne]
      simp [jsDelete, List.eraseP_cons, hp, jsGet, List.find?_cons, this]
    | false =>
      simp only [jsDelete, List.eraseP_cons, hp, cond_false]
      cases hp' : (p.1 == k') with
      | true => simp [jsGet, List.find?_cons, hp']
      | false =>
        simp only [jsGet, List.find?_cons, hp']
        exact ih

theorem jsHas_jsDelete_ne {α : Type} {m : JMap α} {k k' : String} (hne : k' ≠ k) :
    jsHas (jsDelete m k) k' = jsHas m k' := by
  have h1 := jsGet_isSome_iff_has (jsDelete m k) k'
  have h2 := jsGet_isSome_iff_has m k'
  rw [← h1, ← h2, jsGet_jsDelete_ne hne]

theorem jsGet_append_singleton_ne {α : Type} (m : JMap α) {k k' : String}
    (v : α) (hne : k' ≠ k) : jsGet (m ++ [(k, v)]) k' = jsGet m k' := by
  induction m with
  | nil => simp [jsGet, List.find?_cons, show (k == k') = false by simp [Ne.symm hne]]
  | cons p t ih =>
    cases hp : (p.1 == k') with
    | true => simp [jsGet, List.find?_cons, hp]
    | false =>
      simp only [jsGet, List.cons_append, List.find?_cons, hp] at *
      exact ih

theorem find?_eq_none_of_not_has {α : Type} {m : JMap α} {k : String}
    (h : jsHas m k = false) : m.find? (fun p => p.1 == k) = none := by
  cases hf : m.find? (fun p => p.1 == k) with
  | none => rfl
  | some e =>
    exfalso
    have : jsGet m k = some e.2 := by rw [jsGet, hf]; rfl
    rw [jsGet_eq_none_of_not_has h] at this
    exact Option.noConfusion this

theorem jsGet_append_singleton_self {α : Type} (m : JMap α) (k : String) (v : α)
    (h : jsHas m k = false) : jsGet (m ++ [(k, v)]) k = some v := by
  rw [jsGet, find?_append_of_none _ _ (find?_eq_none_of_not_has h)]
  simp [List.find?_cons]

/-- `lruSet` on a key already present in a cache within its bound:
the entry is deleted and re-appended, no eviction happens. -/
theorem lruSet_present {c : Cache} {k w : String} (v : String)
    (hget : jsGet c k = some w) (hnd : (keysOf c).Nodup)
    (hlen : c.length ≤ SVG_CACHE_MAX) :
    lruSet c k v = jsDelete c k ++ [(k, v)] := by
  have hhas : jsHas c k = true := jsHas_eq_true_of_get hget
  have h1 : lruDelStep c k = jsDelete c k := by simp [lruDelStep, hhas]
  have h2 : lruInsStep c k v = jsDelete c k ++ [(k, v)] := by
    rw [lruInsStep, h1, jsSet_of_not_has v (jsHas_jsDelete_self k hnd)]
  have hlen' : (jsDelete c k ++ [(k, v)]).length = c.length := by
    have := length_jsDelete_of_get hget
    simp only [List.length_append, List.length_cons, List.length_nil]
    omega
  rw [lruSet, h2, lruEvictStep, if_neg (by rw [hlen']; omega)]

/-- C3: a `getSvgDataUrl` call for an identifier that is not cached and
whose SVG file cannot be read propagates the failure and leaves the
cache exactly as it was (no insertion, no eviction, no recency change). -/
theorem claim3 (fsRead : String → Option (List Nat)) (c : Cache) (k : String)
    (hmiss : jsHas c k = false) (hfail : fsRead k = none) :
    getSvgDataUrl fsRead c k = (c, none) := by
  have hget : jsGet c k = none := jsGet_eq_none_of_not_has hmiss
  rw [getSvgDataUrl, lruGet_miss hget]
  simp [readInsert, hfail]

theorem claim3_witness :
    jsHas [("x", "u")] "search" = false ∧
    getSvgDataUrl (fun _ => none) [("x", "u")] "search" = ([("x", "u")], none) :=
  ⟨by decide, claim3 (fun _ => none) [("x", "u")] "search" (by decide) rfl⟩

/-- C10: `lruGet` is read-only on the key-value content (a hit permutes
the entries, a miss changes nothing), and `lruSet` on a present key
updates that key's value and recency without evicting anything. -/
theorem claim10 (c : Cache) (k v : String) (hnd : (keysOf c).Nodup)
    (hlen : c.length ≤ SVG_CACHE_MAX) :
    (jsGet c k = none → lruGet c k = (none, c)) ∧
    (∀ w, jsGet c k = some w → (lruGet c k).1 = some w ∧ ((lruGet c k).2).Perm c) ∧
    (jsHas c k = true →
      jsGet (lruSet c k v) k = some v ∧
      (∀ k', k' ≠ k → jsGet (lruSet c k v) k' = jsGet c k') ∧
      (∀ k', jsHas (lruSet c k v) k' = jsHas c k') ∧
      (lruSet c k v).length = c.length) := by
  refine ⟨fun h => lruGet_miss h, fun w hw => ?_, fun hhas => ?_⟩
  · rw [lruGet_hit hnd hw]
    refine ⟨rfl, ?_⟩
    obtain ⟨l₁, l₂, hm, hd, -⟩ := get_decomp hw
    rw [hd]
    have p1 : (l₁ ++ l₂ ++ [(k, w)]).Perm ((k, w) :: (l₁ ++ l₂)) :=
      @List.perm_append_comm _ (l₁ ++ l₂) [(k, w)]
    have p2 : ((k, w) :: (l₁ ++ l₂)).Perm c := by
      rw [hm]
      exact List.perm_middle.symm
    exact p1.trans p2
  · obtain ⟨w, hw⟩ : ∃ w, jsGet c k = some w := by
      have := jsGet_isSome_iff_has c k
      rw [hhas] at this
      exact Option.isSome_iff_exists.mp this
    have hset := lruSet_present v hw hnd hlen
    refine ⟨?_, fun k' hk' => ?_, fun k' => ?_, ?_⟩
    · rw [hset]
      exact jsGet_append_singleton_self _ _ _ (jsHas_jsDelete_self k hnd)
    · rw [hset, jsGet_append_singleton_ne _ _ hk', jsGet_jsDelete_ne hk']
    · by_cases hk' : k' = k
      · rw [hk', hhas, hset]
        have hv : jsGet (jsDelete c k ++ [(k, v)]) k = some v :=
          jsGet_append_singleton_self _ _ _ (jsHas_jsDelete_self k hnd)
        have h2 := jsGet_isSome_iff_has (jsDelete c k ++ [(k, v)]) k
        rw [hv] at h2
        exact h2.symm
      · rw [hset]
        have h1 := jsGet_isSome_iff_has (jsDelete c k ++ [(k, v)]) k'
        have h2 := jsGet_isSome_iff_has c k'
        rw [jsGet_append_singleton_ne _ _ hk', jsGet_jsDelete_ne hk', h2] at h1
        exact h1.symm
    · rw [hset]
      have := length_jsDelete_of_get hw
      simp only [List.length_append, List.length_cons, List.length_nil]
      omega

theorem claim10_witness :
    ((keysOf [("a", "1"), ("b", "2")]).Nodup ∧ [("a", "1"), ("b", "2")].length ≤ SVG_CACHE_MAX) ∧
    ((jsGet [("a", "1"), ("b", "2")] "b" = none →
        lruGet [("a", "1"), ("b", "2")] "b" = (none, [("a", "1"), ("b", "2")])) ∧
      (∀ w, jsGet [("a", "1"), ("b", "2")] "b" = some w →
        (lruGet [("a", "1"), ("b", "2")] "b").1 = some w ∧
        ((lruGet [("a", "1"), ("b", "2")] "b").2).Perm [("a", "1"), ("b", "2")]) ∧
      (jsHas [("a", "1"), ("b", "2")] "b" = true →
        jsGet (lruSet [("a", "1"), ("b", "2")] "b" "9") "b" = some "9" ∧
        (∀ k', k' ≠ "b" →
          jsGet (lruSet [("a", "1"), ("b", "2")] "b" "9") k' = jsGet [("a", "1"), ("b", "2")] k') ∧
        (∀ k', jsHas (lruSet [("a", "1"), ("b", "2")] "b" "9") k' = jsHas [("a", "1"), ("b", "2")] k') ∧
        (lruSet [("a", "1"), ("b", "2")] "b" "9").length = [("a", "1"), ("b", "2")].length)) :=
  ⟨⟨by decide, by decide⟩,
    claim10 [("a", "1"), ("b", "2")] "b" "9" (by decide) (by decide)⟩

/-! ### Concrete caches at the capacity bound -/

/-- The identifier made of `i + 1` copies of `a` (nonempty, pairwise distinct). -/
def akey (i : Nat) : String := String.mk (List.replicate (i + 1) 'a')

theorem akey_injective : Function.Injective akey := by
  intro i j h
  have h' : List.replicate (i + 1) 'a' = List.replicate (j + 1) 'a' :=
    congrArg String.data h
  have := congrArg List.length h'
  simpa using this

theorem akey_ne_empty (i : Nat) : akey i ≠ "" := by
  intro h
  have h' : List.replicate (i + 1) 'a' = ([] : List Char) := congrArg String.data h
  simpa using congrArg List.length h'

theorem akey_ne_b (i : Nat) : akey i ≠ "b" := by
  intro h
  have hl : List.replicate (i + 1) 'a' = ['b'] := congrArg String.data h
  have : 'b' ∈ List.replicate (i + 1) 'a' := by rw [hl]; simp
  have := List.eq_of_mem_replicate this
  simp at this

/-- Three hundred pairwise-distinct nonempty identifiers. -/
def keys300 : List String := (List.range 300).map akey

theorem keys300_nodup : keys300.Nodup :=
  (List.nodup_range 300).map akey_injective

theorem keys300_length : keys300.length = 300 := by simp [keys300]

theorem mem_keys300 {k : String} (h : k ∈ keys300) : ∃ i, akey i = k := by
  obtain ⟨i, -, rfl⟩ := List.mem_map.mp h
  exact ⟨i, rfl⟩

/-- A cache holding exactly `SVG_CACHE_MAX` entries. -/
def fullCache300 : Cache := keys300.map (fun k => (k, "v"))

theorem keysOf_fullCache300 : keysOf fullCache300 = keys300 := by
  simp only [fullCache300, keysOf, List.map_map]
  have heq : (Prod.fst ∘ fun k : String => (k, "v")) = id := rfl
  rw [heq, List.map_id]

theorem fullCache300_length : fullCache300.length = SVG_CACHE_MAX := by
  simp [fullCache300, keys300, SVG_CACHE_MAX]

theorem fullCache300_not_has_b : jsHas fullCache300 "b" = false := by
  rw [jsHas_eq_false_iff, keysOf_fullCache300]
  intro hmem
  obtain ⟨i, hi⟩ := mem_keys300 hmem
  exact akey_ne_b i hi

theorem fullCache300_head : fullCache300.head? = some (akey 0, "v") := rfl

/-- C2: counterexample to the claim as stated.  Inserting the fresh
identifier `b` into a cache that already holds `SVG_CACHE_MAX` entries
passes through the intermediate state produced by `cache.set`, which
holds `SVG_CACHE_MAX + 1` entries: the eviction happens after the
insertion, not before it, so the bound is exceeded transiently. -/
theorem claim2_counterexample :
    fullCache300.length = SVG_CACHE_MAX ∧
    jsHas fullCache300 "b" = false ∧
    lruInsStep fullCache300 "b" "v" ∈ lruSetTrace fullCache300 "b" "v" ∧
    SVG_CACHE_MAX < (lruInsStep fullCache300 "b" "v").length := by
  have hfresh := fullCache300_not_has_b
  have hins : lruInsStep fullCache300 "b" "v" = fullCache300 ++ [("b", "v")] := by
    rw [lruInsStep, lruDelStep, if_neg (by simp [hfresh]), jsSet_of_not_has _ hfresh]
  refine ⟨fullCache300_length, hfresh, by simp [lruSetTrace], ?_⟩
  rw [hins]
  simp only [List.length_append, List.length_cons, List.length_nil, fullCache300_length]
  omega

/-- C2 (amended): when a fresh identifier is inserted into a full image
cache (and the oldest key is a real identifier, i.e. nonempty), the
least-recently-used entry is evicted immediately AFTER the insertion:
the cache transiently holds `SVG_CACHE_MAX + 1` entries at the
intermediate step, and when `lruSet` returns, the oldest entry has been
evicted and the size is back at the bound. -/
theorem claim2_amended (c : Cache) (k v : String)
    (hlen : c.length = SVG_CACHE_MAX) (hfresh : jsHas c k = false)
    (hhead : ∀ p, c.head? = some p → p.1 ≠ "") :
    lruSetTrace c k v = [c, c ++ [(k, v)], c.tail ++ [(k, v)]] ∧
    (c ++ [(k, v)]).length = SVG_CACHE_MAX + 1 ∧
    lruSet c k v = c.tail ++ [(k, v)] ∧
    (lruSet c k v).length = SVG_CACHE_MAX := by
  have hdel : lruDelStep c k = c := by simp [lruDelStep, hfresh]
  have hins : lruInsStep c k v = c ++ [(k, v)] := by
    rw [lruInsStep, hdel, jsSet_of_not_has _ hfresh]
  have hset := lruSet_fresh_full v hfresh hlen hhead
  have hne : c ≠ [] := by
    intro h
    rw [h] at hlen
    simp [SVG_CACHE_MAX] at hlen
  refine ⟨by rw [lruSetTrace, hdel, hins, hset], ?_, hset, ?_⟩
  · simp only [List.length_append, List.length_cons, List.length_nil, hlen]
  · rw [hset]
    have : c.tail.length + 1 = c.length := by
      cases c with
      | nil => exact absurd rfl hne
      | cons p t => simp
    simp only [List.length_append, List.length_cons, List.length_nil]
    omega

theorem claim2_witness :
    (fullCache300.length = SVG_CACHE_MAX ∧ jsHas fullCache300 "b" = false) ∧
    (lruSetTrace fullCache300 "b" "v" =
      [fullCache300, fullCache300 ++ [("b", "v")], fullCache300.tail ++ [("b", "v")]] ∧
    (fullCache300 ++ [("b", "v")]).length = SVG_CACHE_MAX + 1 ∧
    lruSet fullCache300 "b" "v" = fullCache300.tail ++ [("b", "v")] ∧
    (lruSet fullCache300 "b" "v").length = SVG_CACHE_MAX) :=
  ⟨⟨fullCache300_length, fullCache300_not_has_b⟩,
    claim2_amended fullCache300 "b" "v" fullCache300_length fullCache300_not_has_b
      (fun p hp => by
        rw [fullCache300_head] at hp
        have := Option.some.inj hp
        rw [← this]
        exact akey_ne_empty 0)⟩

/-! ### The LRU invariant: retained keys are the most recently accessed ones -/

/-- Cache keys in recency order, most recently accessed first (JS `Map`
iteration order is oldest-first, so this is the reverse of the key list). -/
def keysMRU (c : Cache) : List String := (keysOf c).reverse

/-- The calls of an operation sequence that count as accesses: a
`getSvgDataUrl` call touches the cache exactly when the icon's file is
readable (a hit implies the file was readable when inserted, and the
file system is fixed; a failed read changes nothing). -/
def accessedKeys (fsRead : String → Option (List Nat)) (ops : List String) :
    List String :=
  ops.filter (fun k => (fsRead k).isSome)

/-- First occurrence of each element, in order (deduplication keeping
the earliest occurrence). -/
def firstKeep : List String → List String
  | [] => []
  | k :: ks => k :: (firstKeep ks).filter (fun x => x != k)

/-- Spec-side characterization ("the C most-recently-accessed distinct
identifiers"): the distinct accessed identifiers ordered by their most
recent access, most recent first. -/
def mostRecentDistinct (accesses : List String) : List String :=
  firstKeep accesses.reverse

theorem firstKeep_nodup (l : List String) : (firstKeep l).Nodup := by
  induction l with
  | nil => exact List.nodup_nil
  | cons k ks ih =>
    rw [firstKeep, List.nodup_cons]
    refine ⟨fun hmem => ?_, ih.filter _⟩
    have := (List.mem_filter.mp hmem).2
    simp at this

theorem mostRecentDistinct_append (accesses : List String) (k : String) :
    mostRecentDistinct (accesses ++ [k]) =
      k :: (mostRecentDistinct accesses).filter (fun x => x != k) := by
  rw [mostRecentDistinct, List.reverse_append]
  rfl

/-- Filtering one element out of a `Nodup` prefix: the element occurs in
the first `n` positions, so removing it shifts the prefix bound by one. -/
theorem take_filter_of_mem {L : List String} {n : Nat} {k : String}
    (hnd : L.Nodup) (hmem : k ∈ L.take n) :
    (L.take n).filter (fun x => x != k) = (L.filter (fun x => x != k)).take (n - 1) := by
  induction L generalizing n with
  | nil => simp at hmem
  | cons x t ih =>
    cases n with
    | zero => simp at hmem
    | succ n' =>
      rw [List.nodup_cons] at hnd
      rw [List.take_succ_cons] at hmem ⊢
      by_cases hxk : x = k
      · subst hxk
        have hall : ∀ y ∈ t.take n', (y != x) = true := by
          intro y hy
          have : y ≠ x := fun h => hnd.1 (h ▸ List.take_subset n' t hy)
          simpa using this
        have hallt : ∀ y ∈ t, (y != x) = true := by
          intro y hy
          have : y ≠ x := fun h => hnd.1 (h ▸ hy)
          simpa using this
        rw [List.filter_cons, if_neg (by simp), List.filter_cons, if_neg (by simp)]
        rw [List.filter_eq_self.mpr hall, List.filter_eq_self.mpr hallt]
        simp
      · have hmem' : k ∈ t.take n' := by
          rcases List.mem_cons.mp hmem with h | h
          · exact absurd h.symm hxk
          · exact h
        have hn' : n' ≠ 0 := by
          intro h
          rw [h] at hmem'
          simp at hmem'
        obtain ⟨m, rfl⟩ := Nat.exists_eq_succ_of_ne_zero hn'
        rw [List.filter_cons, if_pos (by simpa using hxk), List.filter_cons,
          if_pos (by simpa using hxk)]
        rw [Nat.succ_sub_one, List.take_succ_cons]
        rw [ih hnd.2 hmem']
        rw [Nat.succ_sub_one]

/-- Filtering an element that does not occur within the first `n`
positions does not disturb any shorter prefix. -/
theorem take_filter_of_not_mem {L : List String} {n m : Nat} {k : String}
    (hmn : m < n) (hmem : k ∉ L.take n) :
    (L.filter (fun x => x != k)).take m = L.take m := by
  induction L generalizing n m with
  | nil => simp
  | cons x t ih =>
    cases n with
    | zero => exact absurd hmn (by omega)
    | succ n' =>
      rw [List.take_succ_cons, List.mem_cons] at hmem
      push_neg at hmem
      rw [List.filter_cons, if_pos (by simpa using Ne.symm hmem.1)]
      cases m with
      | zero => simp
      | succ m' =>
        rw [List.take_succ_cons, List.take_succ_cons]
        rw [ih (show m' < n' by omega) hmem.2]

/-! ### The reachable-cache invariant -/

/-- Invariant of every cache reachable through `getSvgDataUrl`: keys are
unique and nonempty, and every entry stores the data URL of its icon's
(readable) file. -/
def CacheInv (fsRead : String → Option (List Nat)) (c : Cache) : Prop :=
  (keysOf c).Nodup ∧
  ∀ p ∈ c, p.1 ≠ "" ∧ ∃ bytes, fsRead p.1 = some bytes ∧ p.2 = dataUrlOf bytes

theorem CacheInv_nil (fsRead : String → Option (List Nat)) : CacheInv fsRead [] :=
  ⟨List.nodup_nil, fun p hp => absurd hp (List.not_mem_nil p)⟩

theorem inv_entry {fsRead : String → Option (List Nat)} {c : Cache} {k v : String}
    (inv : CacheInv fsRead c) (hget : jsGet c k = some v) :
    k ≠ "" ∧ ∃ bytes, fsRead k = some bytes ∧ v = dataUrlOf bytes := by
  obtain ⟨l₁, l₂, hm, -, -⟩ := get_decomp hget
  have hmem : (k, v) ∈ c := by rw [hm]; simp
  exact inv.2 (k, v) hmem

/-! ### The three shapes of a `getSvgDataUrl` step -/

theorem getSvg_fail {fsRead : String → Option (List Nat)} {c : Cache} {k : String}
    (inv : CacheInv fsRead c) (hfs : fsRead k = none) :
    getSvgDataUrl fsRead c k = (c, none) := by
  have hget : jsGet c k = none := by
    cases hget : jsGet c k with
    | none => rfl
    | some v =>
      obtain ⟨-, bytes, hb, -⟩ := inv_entry inv hget
      rw [hfs] at hb
      exact Option.noConfusion hb
  rw [getSvgDataUrl, lruGet_miss hget]
  simp [readInsert, hfs]

theorem getSvg_hit {fsRead : String → Option (List Nat)} {c : Cache} {k v : String}
    (inv : CacheInv fsRead c) (hget : jsGet c k = some v) :
    getSvgDataUrl fsRead c k = (jsDelete c k ++ [(k, v)], some v) := by
  obtain ⟨-, bytes, -, hvb⟩ := inv_entry inv hget
  have hv : v ≠ "" := hvb ▸ dataUrlOf_ne_empty bytes
  rw [getSvgDataUrl, lruGet_hit inv.1 hget]
  simp [hv]

theorem getSvg_miss_read {fsRead : String → Option (List Nat)} {c : Cache}
    {k : String} {bytes : List Nat}
    (hget : jsGet c k = none) (hfs : fsRead k = some bytes) :
    getSvgDataUrl fsRead c k =
      (lruSet c k (dataUrlOf bytes), some (dataUrlOf bytes)) := by
  rw [getSvgDataUrl, lruGet_miss hget]
  simp [readInsert, hfs]

theorem keysOf_append {α : Type} (m₁ m₂ : JMap α) :
    keysOf (m₁ ++ m₂) = keysOf m₁ ++ keysOf m₂ := by
  simp [keysOf]

theorem keysMRU_append_single (c : Cache) (k v : String) :
    keysMRU (c ++ [(k, v)]) = k :: keysMRU c := by
  simp [keysMRU, keysOf]

theorem keysMRU_jsDelete {c : Cache} (k : String) (hnd : (keysOf c).Nodup) :
    keysMRU (jsDelete c k) = (keysMRU c).filter (fun x => x != k) := by
  rw [keysMRU, keysOf_jsDelete k hnd, keysMRU, List.filter_reverse]

theorem mem_keysMRU {c : Cache} {k : String} :
    k ∈ keysMRU c ↔ k ∈ keysOf c := by
  rw [keysMRU, List.mem_reverse]

theorem length_keysMRU (c : Cache) : (keysMRU c).length = c.length := by
  simp [keysMRU, keysOf]

theorem CacheInv_promote {fsRead : String → Option (List Nat)} {c : Cache}
    {k v : String} (inv : CacheInv fsRead c) (hget : jsGet c k = some v) :
    CacheInv fsRead (jsDelete c k ++ [(k, v)]) := by
  constructor
  · rw [keysOf_append, keysOf_jsDelete k inv.1]
    rw [List.nodup_append]
    refine ⟨inv.1.filter _, List.nodup_singleton k, fun x hx hx' => ?_⟩
    have := (List.mem_filter.mp hx).2
    simp only [keysOf, List.map_cons, List.map_nil, List.mem_singleton] at hx'
    rw [hx'] at this
    simp at this
  · intro p hp
    rcases List.mem_append.mp hp with h | h
    · exact inv.2 p (mem_of_mem_jsDelete h)
    · rw [List.mem_singleton] at h
      subst h
      obtain ⟨hk, bytes, hb, hv⟩ := inv_entry inv hget
      exact ⟨hk, bytes, hb, hv⟩

theorem CacheInv_tail {fsRead : String → Option (List Nat)} {c : Cache}
    (inv : CacheInv fsRead c) : CacheInv fsRead c.tail := by
  cases c with
  | nil => exact inv
  | cons p t =>
    obtain ⟨hnd, hmem⟩ := inv
    rw [keysOf, List.map_cons, List.nodup_cons] at hnd
    exact ⟨hnd.2, fun q hq => hmem q (List.mem_cons_of_mem p hq)⟩

theorem CacheInv_append {fsRead : String → Option (List Nat)} {c₀ : Cache}
    {k : String} {bytes : List Nat} (inv : CacheInv fsRead c₀)
    (hnotin : k ∉ keysOf c₀) (hk : k ≠ "") (hfs : fsRead k = some bytes) :
    CacheInv fsRead (c₀ ++ [(k, dataUrlOf bytes)]) := by
  constructor
  · rw [keysOf_append, List.nodup_append]
    refine ⟨inv.1, List.nodup_singleton k, fun x hx hx' => ?_⟩
    simp only [keysOf, List.map_cons, List.map_nil, List.mem_singleton] at hx'
    exact hnotin (hx' ▸ hx)
  · intro p hp
    rcases List.mem_append.mp hp with h | h
    · exact inv.2 p h
    · rw [List.mem_singleton] at h
      subst h
      exact ⟨hk, bytes, hfs, rfl⟩

theorem keysOf_tail_subset (c : Cache) : keysOf c.tail ⊆ keysOf c := by
  cases c with
  | nil => exact fun x hx => hx
  | cons p t => exact fun x hx => List.mem_cons_of_mem p.1 hx

/-- Core invariant of the image cache under any sequence of
`getSvgDataUrl` calls with nonempty identifiers, starting from the
empty cache: the cache always satisfies `CacheInv`, and its keys in
recency order are exactly the first `SVG_CACHE_MAX` of the distinct
accessed identifiers ordered by most recent access. -/
theorem run_core (fsRead : String → Option (List Nat)) (ops : List String) :
    (∀ k ∈ ops, k ≠ "") →
    CacheInv fsRead (runOps fsRead [] ops) ∧
    keysMRU (runOps fsRead [] ops) =
      (mostRecentDistinct (accessedKeys fsRead ops)).take SVG_CACHE_MAX := by
  induction ops using List.reverseRecOn with
  | nil =>
    intro _
    exact ⟨CacheInv_nil fsRead,
      by simp [keysMRU, keysOf, runOps, mostRecentDistinct, accessedKeys, firstKeep]⟩
  | append_singleton l k ih =>
    intro hne
    have hne' : ∀ x ∈ l, x ≠ "" := fun x hx => hne x (List.mem_append_left _ hx)
    have hk : k ≠ "" := hne k (List.mem_append_right _ (by simp))
    obtain ⟨inv, hmru⟩ := ih hne'
    have hrun : runOps fsRead [] (l ++ [k]) =
        (getSvgDataUrl fsRead (runOps fsRead [] l) k).1 := by
      rw [runOps_append]; rfl
    have hlen : (runOps fsRead [] l).length ≤ SVG_CACHE_MAX := by
      have hlg := congrArg List.length hmru
      rw [length_keysMRU, List.length_take] at hlg
      rw [hlg]
      exact min_le_left _ _
    cases hfs : fsRead k with
    | none =>
      have hstep := getSvg_fail inv hfs
      have hacc : accessedKeys fsRead (l ++ [k]) = accessedKeys fsRead l := by
        simp [accessedKeys, List.filter_append, hfs]
      rw [hrun, hstep, hacc]
      exact ⟨inv, hmru⟩
    | some bytes =>
      have hacc : accessedKeys fsRead (l ++ [k]) = accessedKeys fsRead l ++ [k] := by
        simp [accessedKeys, List.filter_append, hfs]
      have hmrd : mostRecentDistinct (accessedKeys fsRead (l ++ [k])) =
          k :: (mostRecentDistinct (accessedKeys fsRead l)).filter (fun x => x != k) := by
        rw [hacc, mostRecentDistinct_append]
      have hLnd : (mostRecentDistinct (accessedKeys fsRead l)).Nodup :=
        firstKeep_nodup _
      cases hget : jsGet (runOps fsRead [] l) k with
      | some v =>
        have hstep := getSvg_hit inv hget
        have hkmem : k ∈ (mostRecentDistinct (accessedKeys fsRead l)).take SVG_CACHE_MAX := by
          rw [← hmru, mem_keysMRU]
          have := jsGet_isSome_iff_mem (runOps fsRead [] l) k
          rw [hget] at this
          exact this.mp rfl
        refine ⟨by rw [hrun, hstep]; exact CacheInv_promote inv hget, ?_⟩
        rw [hrun, hstep, hmrd]
        show keysMRU (jsDelete (runOps fsRead [] l) k ++ [(k, v)]) = _
        rw [keysMRU_append_single, keysMRU_jsDelete k inv.1, hmru,
          take_filter_of_mem hLnd hkmem]
        rw [show SVG_CACHE_MAX = 299 + 1 from rfl, List.take_succ_cons]
      | none =>
        have hfresh : jsHas (runOps fsRead [] l) k = false :=
          (jsGet_eq_none_iff _ _).mp hget
        have hknot : k ∉ keysOf (runOps fsRead [] l) :=
          (jsHas_eq_false_iff _ _).mp hfresh
        have hknotMRU : k ∉ keysMRU (runOps fsRead [] l) :=
          fun h => hknot (mem_keysMRU.mp h)
        have hstep := getSvg_miss_read hget hfs
        by_cases hfull : (runOps fsRead [] l).length = SVG_CACHE_MAX
        · have hhead : ∀ p, (runOps fsRead [] l).head? = some p → p.1 ≠ "" :=
            fun p hp => (inv.2 p (List.mem_of_mem_head? hp)).1
          have hset := lruSet_fresh_full (dataUrlOf bytes) hfresh hfull hhead
          refine ⟨?_, ?_⟩
          · rw [hrun, hstep]
            show CacheInv fsRead (lruSet (runOps fsRead [] l) k (dataUrlOf bytes))
            rw [hset]
            exact CacheInv_append (CacheInv_tail inv)
              (fun h => hknot (keysOf_tail_subset _ h)) hk hfs
          · rw [hrun, hstep]
            show keysMRU (lruSet (runOps fsRead [] l) k (dataUrlOf bytes)) = _
            rw [hset, hmrd, keysMRU_append_single]
            obtain ⟨p, t, hc⟩ : ∃ p t, runOps fsRead [] l = p :: t := by
              cases hcc : runOps fsRead [] l with
              | nil => rw [hcc] at hfull; simp [SVG_CACHE_MAX] at hfull
              | cons p t => exact ⟨p, t, rfl⟩
            have htlen : t.length = 299 := by
              rw [hc] at hfull
              simp only [List.length_cons, SVG_CACHE_MAX] at hfull
              omega
            have hsplit : keysMRU (runOps fsRead [] l) = keysMRU t ++ [p.1] := by
              rw [hc, keysMRU, keysOf, List.map_cons, List.reverse_cons]
              rfl
            have hmruT : keysMRU t =
                (mostRecentDistinct (accessedKeys fsRead l)).take 299 := by
              have h1 : (keysMRU t ++ [p.1]).take 299 = keysMRU t :=
                List.take_left' (by rw [length_keysMRU, htlen])
              have h2 := congrArg (List.take 299) hmru
              rw [hsplit] at h2
              rw [h1] at h2
              rw [h2, List.take_take, show SVG_CACHE_MAX = 300 from rfl,
                show (299 ⊓ 300) = 299 by decide]
            have hTtail : keysMRU (p :: t).tail = keysMRU t := by rfl
            rw [hc, hTtail, hmruT]
            rw [show SVG_CACHE_MAX = 299 + 1 from rfl, List.take_succ_cons]
            rw [take_filter_of_not_mem (show 299 < 300 by decide)
              (by rw [show (300 : Nat) = SVG_CACHE_MAX from rfl, ← hmru]; exact hknotMRU)]
        · have hlt : (runOps fsRead [] l).length < SVG_CACHE_MAX := by omega
          have hset := lruSet_fresh_small (dataUrlOf bytes) hfresh hlt
          have hLshort : (mostRecentDistinct (accessedKeys fsRead l)).length < SVG_CACHE_MAX := by
            by_contra hge
            push_neg at hge
            have hfix : (keysMRU (runOps fsRead [] l)).length = SVG_CACHE_MAX := by
              rw [hmru, List.length_take]
              exact inf_eq_left.mpr hge
            rw [length_keysMRU] at hfix
            exact hfull hfix
          have hmru' : keysMRU (runOps fsRead [] l) =
              mostRecentDistinct (accessedKeys fsRead l) := by
            rw [hmru, List.take_of_length_le (by omega)]
          have hknotL : k ∉ mostRecentDistinct (accessedKeys fsRead l) := by
            rw [← hmru']
            exact hknotMRU
          have hfilter : (mostRecentDistinct (accessedKeys fsRead l)).filter
              (fun x => x != k) = mostRecentDistinct (accessedKeys fsRead l) := by
            rw [List.filter_eq_self]
            intro a ha
            have : a ≠ k := fun h => hknotL (h ▸ ha)
            simpa using this
          refine ⟨?_, ?_⟩
          · rw [hrun, hstep]
            show CacheInv fsRead (lruSet (runOps fsRead [] l) k (dataUrlOf bytes))
            rw [hset]
            exact CacheInv_append inv hknot hk hfs
          · rw [hrun, hstep]
            show keysMRU (lruSet (runOps fsRead [] l) k (dataUrlOf bytes)) = _
            rw [hset, hmrd, keysMRU_append_single, hmru', hfilter]
            rw [show SVG_CACHE_MAX = 299 + 1 from rfl, List.take_succ_cons]
            rw [List.take_of_length_le (Nat.lt_succ_iff.mp hLshort)]

/-- The four possible shapes of the cache after one `getSvgDataUrl` step
on an invariant-satisfying cache: unchanged (failed read), promotion of
a hit, plain append (cache not full), or eviction of the oldest entry
plus append (cache full). -/
theorem step_shape {fsRead : String → Option (List Nat)} {c : Cache} {k : String}
    (inv : CacheInv fsRead c) (hlen : c.length ≤ SVG_CACHE_MAX) :
    (getSvgDataUrl fsRead c k).1 = c ∨
    (∃ v, (getSvgDataUrl fsRead c k).1 = jsDelete c k ++ [(k, v)]) ∨
    (∃ u, (getSvgDataUrl fsRead c k).1 = c ++ [(k, u)]) ∨
    (∃ u, (getSvgDataUrl fsRead c k).1 = c.tail ++ [(k, u)] ∧
      c.length = SVG_CACHE_MAX) := by
  cases hfs : fsRead k with
  | none => exact Or.inl (by rw [getSvg_fail inv hfs])
  | some bytes =>
    cases hget : jsGet c k with
    | some v => exact Or.inr (Or.inl ⟨v, by rw [getSvg_hit inv hget]⟩)
    | none =>
      have hfresh : jsHas c k = false := (jsGet_eq_none_iff _ _).mp hget
      by_cases hfull : c.length = SVG_CACHE_MAX
      · refine Or.inr (Or.inr (Or.inr ⟨dataUrlOf bytes, ?_, hfull⟩))
        rw [getSvg_miss_read hget hfs]
        exact lruSet_fresh_full (dataUrlOf bytes) hfresh hfull
          (fun p hp => (inv.2 p (List.mem_of_mem_head? hp)).1)
      · refine Or.inr (Or.inr (Or.inl ⟨dataUrlOf bytes, ?_⟩))
        rw [getSvg_miss_read hget hfs]
        exact lruSet_fresh_small (dataUrlOf bytes) hfresh (by omega)

/-- C1 (amended, restricted to nonempty identifiers): after every
`getSvgDataUrl` operation the cache size is at most `SVG_CACHE_MAX`, the
retained keys in recency order are exactly the `SVG_CACHE_MAX` most
recently accessed distinct identifiers (hits and successful inserts both
count as accesses, failed reads do not), and whenever a key disappears
in a step it is the oldest (least recently accessed) one. -/
theorem claim1 (fsRead : String → Option (List Nat)) (ops : List String)
    (hne : ∀ k ∈ ops, k ≠ "") (i : Nat) :
    (runOps fsRead [] (ops.take i)).length ≤ SVG_CACHE_MAX ∧
    keysMRU (runOps fsRead [] (ops.take i)) =
      (mostRecentDistinct (accessedKeys fsRead (ops.take i))).take SVG_CACHE_MAX ∧
    (∀ key ∈ keysOf (runOps fsRead [] (ops.take i)),
      key ∉ keysOf (runOps fsRead [] (ops.take (i + 1))) →
      (runOps fsRead [] (ops.take i)).head?.map Prod.fst = some key) := by
  have hne_i : ∀ k ∈ ops.take i, k ≠ "" := fun k hk => hne k (List.take_subset i ops hk)
  obtain ⟨inv, hmru⟩ := run_core fsRead (ops.take i) hne_i
  have hlen : (runOps fsRead [] (ops.take i)).length ≤ SVG_CACHE_MAX := by
    have hlg := congrArg List.length hmru
    rw [length_keysMRU, List.length_take] at hlg
    rw [hlg]
    exact min_le_left _ _
  refine ⟨hlen, hmru, fun key hmem hgone => ?_⟩
  by_cases hi : i < ops.length
  · have htake : ops.take (i + 1) = ops.take i ++ [ops[i]] := by
      rw [List.take_succ, List.getElem?_eq_getElem hi]
      rfl
    have hrun : runOps fsRead [] (ops.take (i + 1)) =
        (getSvgDataUrl fsRead (runOps fsRead [] (ops.take i)) (ops[i])).1 := by
      rw [htake, runOps_append]
      rfl
    rcases step_shape inv hlen with hsh | ⟨v, hsh⟩ | ⟨u, hsh⟩ | ⟨u, hsh, hfull⟩
    · rw [hrun, hsh] at hgone
      exact absurd hmem hgone
    · rw [hrun, hsh, keysOf_append, keysOf_jsDelete _ inv.1] at hgone
      by_cases hkey : key = ops[i]
      · refine absurd (List.mem_append.mpr (Or.inr ?_)) hgone
        simp [keysOf, hkey]
      · refine absurd (List.mem_append.mpr (Or.inl ?_)) hgone
        exact List.mem_filter.mpr ⟨hmem, by simpa using hkey⟩
    · rw [hrun, hsh, keysOf_append] at hgone
      exact absurd (List.mem_append.mpr (Or.inl hmem)) hgone
    · obtain ⟨p, t, hc⟩ : ∃ p t, runOps fsRead [] (ops.take i) = p :: t := by
        cases hcc : runOps fsRead [] (ops.take i) with
        | nil => rw [hcc] at hfull; simp [SVG_CACHE_MAX] at hfull
        | cons p t => exact ⟨p, t, rfl⟩
      rw [hrun, hsh, keysOf_append, hc] at hgone
      rw [hc] at hmem
      rw [hc]
      have hmem' : key = p.1 ∨ key ∈ keysOf t := by
        rw [keysOf, List.map_cons, List.mem_cons] at hmem
        exact hmem
      rcases hmem' with hkey | hkey
      · rw [hkey]
        rfl
      · exact absurd (List.mem_append.mpr (Or.inl hkey)) hgone
  · have heq : ops.take (i + 1) = ops.take i := by
      rw [List.take_of_length_le (by omega), List.take_of_length_le (by omega)]
    rw [heq] at hgone
    exact absurd hmem hgone

/-- A file system on which every read succeeds. -/
def fsAll : String → Option (List Nat) := fun _ => some [60]

/-- Access the empty identifier first, then 300 distinct others. -/
def opsOverflow : List String := "" :: keys300

/-- When the oldest cache entry has the empty-string key, `lruSet` of a
fresh key never evicts: the JS truthiness guard `if (oldestKey)` is
false for `""`, so the cache just grows. -/
theorem lruSet_fresh_headEmpty {c : Cache} {k : String} (v : String)
    (hfresh : jsHas c k = false) {q : String × String}
    (hq : c.head? = some q) (hq1 : q.1 = "") :
    lruSet c k v = c ++ [(k, v)] := by
  obtain ⟨t, rfl⟩ : ∃ t, c = q :: t := by
    cases c with
    | nil => exact Option.noConfusion hq
    | cons p t => exact ⟨t, by rw [Option.some.inj hq]⟩
  have hdel : lruDelStep (q :: t) k = q :: t := by simp [lruDelStep, hfresh]
  have hins : lruInsStep (q :: t) k v = (q :: t) ++ [(k, v)] := by
    rw [lruInsStep, hdel, jsSet_of_not_has _ hfresh]
  rw [lruSet, hins, lruEvictStep]
  by_cases hbig : SVG_CACHE_MAX < ((q :: t) ++ [(k, v)]).length
  · rw [if_pos hbig]
    simp only [List.cons_append, List.head?_cons]
    rw [if_pos hq1]
  · rw [if_neg hbig]

/-- Starting from a cache whose oldest key is empty, inserting fresh
distinct identifiers grows the cache without bound. -/
theorem runOps_fresh_grow (ks : List String) : ∀ c : Cache,
    (∃ q, c.head? = some q ∧ q.1 = "") →
    ks.Nodup → (∀ k ∈ ks, k ∉ keysOf c) →
    (runOps fsAll c ks).length = c.length + ks.length := by
  induction ks with
  | nil => intro c _ _ _; simp [runOps]
  | cons k ks' ih =>
    intro c hq hnd hfresh
    obtain ⟨q, hq, hq1⟩ := hq
    have hkmem : k ∉ keysOf c := hfresh k (List.mem_cons_self k ks')
    have hhas : jsHas c k = false := (jsHas_eq_false_iff _ _).mpr hkmem
    have hget : jsGet c k = none := jsGet_eq_none_of_not_has hhas
    have hstep : (getSvgDataUrl fsAll c k).1 = c ++ [(k, dataUrlOf [60])] := by
      rw [getSvg_miss_read hget rfl]
      exact lruSet_fresh_headEmpty _ hhas hq hq1
    rw [List.nodup_cons] at hnd
    have hq' : ∃ q', (c ++ [(k, dataUrlOf [60])]).head? = some q' ∧ q'.1 = "" := by
      cases c with
      | nil => exact Option.noConfusion hq
      | cons p t =>
        refine ⟨p, by rw [List.cons_append, List.head?_cons], ?_⟩
        have h0 : some p = some q := by rw [← hq, List.head?_cons]
        rw [Option.some.inj h0, hq1]
    have hfresh' : ∀ x ∈ ks', x ∉ keysOf (c ++ [(k, dataUrlOf [60])]) := by
      intro x hx hmem
      rw [keysOf_append] at hmem
      rcases List.mem_append.mp hmem with h | h
      · exact hfresh x (List.mem_cons_of_mem k hx) h
      · simp only [keysOf, List.map_cons, List.map_nil, List.mem_singleton] at h
        exact hnd.1 (h ▸ hx)
    rw [runOps, hstep, ih _ hq' hnd.2 hfresh']
    simp only [List.length_append, List.length_cons, List.length_nil, List.length,
      Nat.add_assoc]
    omega

/-- C1: counterexample to the claim as stated.  The identifier space of
`getSvgDataUrl` includes the empty string; because the eviction guard
`if (oldestKey)` is a JS truthiness test, an access to `""` followed by
`SVG_CACHE_MAX` distinct accesses leaves the cache with
`SVG_CACHE_MAX + 1` entries — the bound is violated even though every
operation in the sequence is a successful access. -/
theorem claim1_counterexample :
    SVG_CACHE_MAX = 300 ∧
    (∀ k ∈ opsOverflow, (fsAll k).isSome = true) ∧
    (runOps fsAll [] opsOverflow).length = 301 := by
  refine ⟨rfl, fun k _ => rfl, ?_⟩
  have h1 : runOps fsAll [] opsOverflow = runOps fsAll (runOps fsAll [] [""]) keys300 := by
    rw [show opsOverflow = [""] ++ keys300 from rfl, runOps_append]
  have h2 : runOps fsAll [] [""] = [("", dataUrlOf [60])] := by
    show (getSvgDataUrl fsAll [] "").1 = _
    rw [getSvg_miss_read (show jsGet ([] : Cache) "" = none from rfl)
      (show fsAll "" = some [60] from rfl)]
    rfl
  have h3 : ∀ k ∈ keys300, k ∉ keysOf [("", dataUrlOf [60])] := by
    intro k hk hmem
    obtain ⟨i, hi⟩ := mem_keys300 hk
    simp only [keysOf, List.map_cons, List.map_nil, List.mem_singleton] at hmem
    exact akey_ne_empty i (hi.trans hmem)
  rw [h1, h2, runOps_fresh_grow keys300 [("", dataUrlOf [60])]
    ⟨("", dataUrlOf [60]), rfl, rfl⟩ keys300_nodup h3]
  rw [keys300_length]
  simp

theorem claim1_witness :
    (∀ k ∈ ["x", "search", "a", "x"], k ≠ "") ∧
    ((runOps fsAll [] (["x", "search", "a", "x"].take 4)).length ≤ SVG_CACHE_MAX ∧
    keysMRU (runOps fsAll [] (["x", "search", "a", "x"].take 4)) =
      (mostRecentDistinct (accessedKeys fsAll (["x", "search", "a", "x"].take 4))).take
        SVG_CACHE_MAX ∧
    (∀ key ∈ keysOf (runOps fsAll [] (["x", "search", "a", "x"].take 4)),
      key ∉ keysOf (runOps fsAll [] (["x", "search", "a", "x"].take (4 + 1))) →
      (runOps fsAll [] (["x", "search", "a", "x"].take 4)).head?.map Prod.fst =
        some key)) :=
  ⟨by decide, claim1 fsAll ["x", "search", "a", "x"] (by decide) 4⟩

/-! ### The token scanner

`updateDecorations` scans every line with the global regex
`/ti ti-([a-z0-9-]+)/g`: repeated `exec` finds successive leftmost
non-overlapping matches (each match's `lastIndex` is `index + length`,
and a final `null` result resets `lastIndex`, so each line starts
fresh).  The scan is modelled as a left-to-right pass that, at each
position, tries to match the literal marker `ti ti-` followed by a
maximal nonempty run of identifier-body characters. -/

/-- A located token occurrence: line number, start and end column
(half-open), and the captured icon identifier. -/
structure MatchSpan where
  line : Nat
  startCol : Nat
  endCol : Nat
  icon : String
deriving DecidableEq, Repr

/-- The identifier-body character class `[a-z0-9-]`. -/
def isBodyChar (c : Char) : Bool :=
  (decide ('a' ≤ c) && decide (c ≤ 'z')) ||
    (decide ('0' ≤ c) && decide (c ≤ '9')) || (c == '-')

/-- The literal marker `ti ti-`. -/
def tiMarker : List Char := ['t', 'i', ' ', 't', 'i', '-']

/-- Try to match the token at the head of a suffix: on success returns
the captured identifier and the total match length (`6 + body length`,
greedy body). -/
def matchAt (cs : List Char) : Option (String × Nat) :=
  if tiMarker.isPrefixOf cs then
    let body := (cs.drop 6).takeWhile isBodyChar
    if body.isEmpty then none
    else some (String.mk body, 6 + body.length)
  else none

/-- Left-to-right scan: `i` is the current absolute column, `skip` the
number of columns still covered by the previous match (regex
`lastIndex` advancement, making matches non-overlapping).  Yields
`(start, length, identifier)` triples in order. -/
def scanGo : Nat → Nat → List Char → List (Nat × Nat × String)
  | _, _, [] => []
  | i, skip + 1, _ :: rest => scanGo (i + 1) skip rest
  | i, 0, c :: rest =>
    match matchAt (c :: rest) with
    | some (name, len) => (i, len, name) :: scanGo (i + 1) (len - 1) rest
    | none => scanGo (i + 1) 0 rest

/-- All matches of one line, as `MatchSpan`s. -/
def scanLine (lineNo : Nat) (text : String) : List MatchSpan :=
  (scanGo 0 0 text.toList).map (fun t => ⟨lineNo, t.1, t.1 + t.2.1, t.2.2⟩)

/-- All matches of a document, line by line. -/
def scanDoc (lines : List String) : List MatchSpan :=
  (lines.enum.map (fun p => scanLine p.1 p.2)).flatten

/-- C5: the line `ti ti-` with no identifier-body characters after the
marker yields no match, and `ti ti-a ti ti-b` yields exactly two
non-overlapping spans, the first for `a` (columns 0-7) and the second
for `b` (columns 8-15). -/
theorem claim5 :
    scanLine 0 "ti ti-" = [] ∧
    scanLine 0 "ti ti-a ti ti-b" =
      [⟨0, 0, 7, "a"⟩, ⟨0, 8, 15, "b"⟩] ∧
    (7 : Nat) ≤ 8 := by
  decide

theorem matchAt_nil : matchAt [] = none := rfl

theorem isPrefixOf_append_self (a b : List Char) : a.isPrefixOf (a ++ b) = true := by
  induction a with
  | nil => simp [List.isPrefixOf]
  | cons x t ih => simp [List.isPrefixOf, ih]

theorem takeWhile_append_all {p : Char → Bool} {a : List Char} (b : List Char)
    (h : ∀ c ∈ a, p c = true) :
    (a ++ b).takeWhile p = a ++ b.takeWhile p := by
  induction a with
  | nil => rfl
  | cons x t ih =>
    rw [List.cons_append, List.takeWhile_cons, h x (List.mem_cons_self x t)]
    rw [ih (fun c hc => h c (List.mem_cons_of_mem x hc))]
    rfl

/-- The token matches at the start of `tiMarker ++ id ++ post` when
`id` is a nonempty all-body-character identifier and `post` does not
begin with a body character. -/
theorem matchAt_token (id post : List Char) (hid1 : id ≠ [])
    (hid2 : ∀ c ∈ id, isBodyChar c = true)
    (hpost : post.takeWhile isBodyChar = []) :
    matchAt (tiMarker ++ (id ++ post)) = some (String.mk id, 6 + id.length) := by
  rw [matchAt, if_pos (isPrefixOf_append_self _ _)]
  have hdrop : (tiMarker ++ (id ++ post)).drop 6 = id ++ post := by
    rw [show (6 : Nat) = tiMarker.length from rfl, List.drop_left]
  rw [hdrop, takeWhile_append_all post hid2, hpost, List.append_nil]
  rw [if_neg (by simpa [List.isEmpty_iff] using hid1)]

theorem scanGo_skip (a : List Char) : ∀ (b : List Char) (i : Nat),
    scanGo i a.length (a ++ b) = scanGo (i + a.length) 0 b := by
  induction a with
  | nil => intro b i; simp [List.nil_append]
  | cons x t ih =>
    intro b i
    rw [List.cons_append, List.length_cons, scanGo, ih]
    have : i + 1 + t.length = i + (t.length + 1) := by omega
    rw [this]

theorem scanGo_none (a : List Char) : ∀ (b : List Char) (i : Nat),
    (∀ j, j < a.length → matchAt (a.drop j ++ b) = none) →
    scanGo i 0 (a ++ b) = scanGo (i + a.length) 0 b := by
  induction a with
  | nil => intro b i _; simp [List.nil_append]
  | cons x t ih =>
    intro b i h
    have h0 : matchAt (x :: (t ++ b)) = none := by
      have h' := h 0 (by simp)
      rw [List.drop_zero, List.cons_append] at h'
      exact h'
    rw [List.cons_append, scanGo, h0, ih b (i + 1)
      (fun j hj => by simpa using h (j + 1) (by simpa using hj))]
    rw [List.length_cons]
    have : i + 1 + t.length = i + (t.length + 1) := by omega
    rw [this]

theorem scanGo_nil_of_none (a : List Char) : ∀ (i : Nat),
    (∀ j, matchAt (a.drop j) = none) → scanGo i 0 a = [] := by
  induction a with
  | nil => intro i _; rfl
  | cons x t ih =>
    intro i h
    have h0 : matchAt (x :: t) = none := by simpa using h 0
    rw [scanGo, h0]
    exact ih (i + 1) (fun j => by simpa using h (j + 1))

theorem tiMarker_length : tiMarker.length = 6 := rfl

theorem scanGo_match {i : Nat} {c : Char} {rest : List Char} {name : String}
    {len : Nat} (h : matchAt (c :: rest) = some (name, len)) :
    scanGo i 0 (c :: rest) = (i, len, name) :: scanGo (i + 1) (len - 1) rest := by
  rw [scanGo, h]

/-- C4: a line containing the token `ti ti-<id>` (with a nonempty
identifier drawn from the body character class, the token not extending
further right) and no other occurrence of the token pattern scans to
exactly one `MatchSpan`, whose covered substring is `ti ti-<id>`. -/
theorem claim4 (pre id post : List Char) (lineNo : Nat)
    (hid1 : id ≠ []) (hid2 : ∀ c ∈ id, isBodyChar c = true)
    (hpost : post.takeWhile isBodyChar = [])
    (huniq : ∀ p, p < (pre ++ tiMarker ++ id ++ post).length → p ≠ pre.length →
      matchAt ((pre ++ tiMarker ++ id ++ post).drop p) = none) :
    scanLine lineNo (String.mk (pre ++ tiMarker ++ id ++ post)) =
      [⟨lineNo, pre.length, pre.length + (6 + id.length), String.mk id⟩] ∧
    ((pre ++ tiMarker ++ id ++ post).drop pre.length).take (6 + id.length) =
      tiMarker ++ id := by
  have hline : pre ++ tiMarker ++ id ++ post = pre ++ (tiMarker ++ (id ++ post)) := by
    simp [List.append_assoc]
  have hdrop_pre : (pre ++ (tiMarker ++ (id ++ post))).drop pre.length =
      tiMarker ++ (id ++ post) := List.drop_left pre _
  have hlenline : (pre ++ tiMarker ++ id ++ post).length =
      pre.length + (6 + (id.length + post.length)) := by
    rw [hline, List.length_append, List.length_append, List.length_append,
      tiMarker_length]
  constructor
  · rw [scanLine]
    have htl : (String.mk (pre ++ tiMarker ++ id ++ post)).toList =
        pre ++ (tiMarker ++ (id ++ post)) := by rw [← hline]; rfl
    rw [htl]
    have hfail_pre : ∀ j, j < pre.length →
        matchAt (pre.drop j ++ (tiMarker ++ (id ++ post))) = none := by
      intro j hj
      have hlt : j < (pre ++ tiMarker ++ id ++ post).length := by
        rw [hlenline]
        omega
      have hjq := huniq j hlt (by omega)
      rw [hline, List.drop_append_of_le_length (by omega)] at hjq
      exact hjq
    rw [scanGo_none pre _ 0 hfail_pre, Nat.zero_add]
    have hmk : tiMarker ++ (id ++ post) =
        't' :: (['i', ' ', 't', 'i', '-'] ++ (id ++ post)) := rfl
    have hmat : matchAt ('t' :: (['i', ' ', 't', 'i', '-'] ++ (id ++ post))) =
        some (String.mk id, 6 + id.length) := by
      rw [← hmk]
      exact matchAt_token id post hid1 hid2 hpost
    rw [hmk, scanGo_match hmat]
    have hsk : 6 + id.length - 1 = (['i', ' ', 't', 'i', '-'] ++ id).length := by
      rw [List.length_append]
      simp only [List.length_cons, List.length_nil]
      omega
    have hre : ['i', ' ', 't', 'i', '-'] ++ (id ++ post) =
        (['i', ' ', 't', 'i', '-'] ++ id) ++ post := by
      rw [List.append_assoc]
    rw [hsk, hre, scanGo_skip]
    have hfail_post : ∀ j, matchAt (post.drop j) = none := by
      intro j
      by_cases hj : j < post.length
      · have hp : pre.length + ((6 + id.length) + j) <
            (pre ++ tiMarker ++ id ++ post).length := by
          rw [hlenline]
          omega
        have hjq := huniq (pre.length + ((6 + id.length) + j)) hp (by omega)
        have hdrop2 : (pre ++ tiMarker ++ id ++ post).drop
            (pre.length + ((6 + id.length) + j)) = post.drop j := by
          rw [hline, List.drop_append]
          rw [show tiMarker ++ (id ++ post) = (tiMarker ++ id) ++ post from by
            rw [List.append_assoc]]
          rw [show (6 + id.length) + j = (tiMarker ++ id).length + j from by
            rw [List.length_append, tiMarker_length]]
          rw [List.drop_append]
        rw [hdrop2] at hjq
        exact hjq
      · rw [List.drop_eq_nil_of_le (by omega)]
        exact matchAt_nil
    rw [scanGo_nil_of_none post _ hfail_post]
    simp only [List.map_cons, List.map_nil]
  · rw [hline, hdrop_pre]
    rw [show tiMarker ++ (id ++ post) = (tiMarker ++ id) ++ post from by
      rw [List.append_assoc]]
    exact List.take_left' (by rw [List.length_append, tiMarker_length])

def c4pre : List Char := "<i class=\"".toList

def c4id : List Char := "search".toList

def c4post : List Char := " text-xl\"></i>".toList

theorem claim4_witness :
    (c4id ≠ [] ∧ (∀ c ∈ c4id, isBodyChar c = true) ∧
      c4post.takeWhile isBodyChar = [] ∧
      (∀ p, p < (c4pre ++ tiMarker ++ c4id ++ c4post).length → p ≠ c4pre.length →
        matchAt ((c4pre ++ tiMarker ++ c4id ++ c4post).drop p) = none)) ∧
    scanLine 0 "<i class=\"ti ti-search text-xl\"></i>" = [⟨0, 10, 22, "search"⟩] ∧
    ("<i class=\"ti ti-search text-xl\"></i>".toList.drop 10).take 12 =
      "ti ti-search".toList := by
  refine ⟨⟨by decide, by decide, by decide, by decide⟩, ?_, ?_⟩
  · exact (claim4 c4pre c4id c4post 0 (by decide) (by decide) (by decide) (by decide)).1
  · exact (claim4 c4pre c4id c4post 0 (by decide) (by decide) (by decide) (by decide)).2

/-! ### The decoration registry (`decorationCache` / `getDecorationForIcon`)

`vscode.window.createTextEditorDecorationType` returns a fresh opaque
handle each time it is called; handles are modelled as naturals drawn
from a counter. -/

/-- The registry state: `decorationCache` (icon name to handle, in
insertion order) plus the supply of fresh handles. -/
structure DecoState where
  registry : JMap Nat
  nextHandle : Nat
deriving DecidableEq, Repr

/-- `getDecorationForIcon`: return the cached handle, or create a fresh
one, store it and return it. -/
def getDecorationForIcon (s : DecoState) (name : String) : Nat × DecoState :=
  match jsGet s.registry name with
  | some h => (h, s)
  | none => (s.nextHandle, ⟨jsSet s.registry name s.nextHandle, s.nextHandle + 1⟩)

/-- The registry at process start: empty. -/
def initDecoState : DecoState := ⟨[], 0⟩

/-- State after a sequence of `getDecorationForIcon` calls. -/
def runDeco (s : DecoState) : List String → DecoState
  | [] => s
  | n :: ns => runDeco (getDecorationForIcon s n).2 ns

theorem getDeco_lookup_some {s : DecoState} {name : String} {h : Nat}
    (hget : jsGet s.registry name = some h) :
    getDecorationForIcon s name = (h, s) := by
  rw [getDecorationForIcon, hget]

theorem getDeco_lookup_none {s : DecoState} {name : String}
    (hget : jsGet s.registry name = none) :
    getDecorationForIcon s name =
      (s.nextHandle, ⟨s.registry ++ [(name, s.nextHandle)], s.nextHandle + 1⟩) := by
  rw [getDecorationForIcon, hget]
  rw [jsSet_of_not_has _ ((jsGet_eq_none_iff _ _).mp hget)]

theorem getDeco_get_after (s : DecoState) (name : String) :
    jsGet (getDecorationForIcon s name).2.registry name =
      some (getDecorationForIcon s name).1 := by
  cases hget : jsGet s.registry name with
  | some h => rw [getDeco_lookup_some hget]; exact hget
  | none =>
    rw [getDeco_lookup_none hget]
    exact jsGet_append_singleton_self _ _ _ ((jsGet_eq_none_iff _ _).mp hget)

theorem getDeco_mono {s : DecoState} {m : String} {h : Nat} (name : String)
    (hget : jsGet s.registry m = some h) :
    jsGet (getDecorationForIcon s name).2.registry m = some h := by
  cases hname : jsGet s.registry name with
  | some h' => rw [getDeco_lookup_some hname]; exact hget
  | none =>
    rw [getDeco_lookup_none hname]
    have hne : m ≠ name := by
      intro he
      rw [he, hname] at hget
      exact Option.noConfusion hget
    rw [jsGet_append_singleton_ne _ _ hne]
    exact hget

theorem runDeco_mono {s : DecoState} {m : String} {h : Nat} (ops : List String)
    (hget : jsGet s.registry m = some h) :
    jsGet (runDeco s ops).registry m = some h := by
  induction ops generalizing s with
  | nil => exact hget
  | cons n ns ih => exact ih (getDeco_mono n hget)

theorem getDeco_nodup {s : DecoState} (name : String)
    (hnd : (keysOf s.registry).Nodup) :
    (keysOf (getDecorationForIcon s name).2.registry).Nodup := by
  cases hget : jsGet s.registry name with
  | some h => rw [getDeco_lookup_some hget]; exact hnd
  | none =>
    rw [getDeco_lookup_none hget]
    show (keysOf (s.registry ++ [(name, s.nextHandle)])).Nodup
    rw [keysOf_append, List.nodup_append]
    refine ⟨hnd, List.nodup_singleton name, fun x hx hx' => ?_⟩
    simp only [keysOf, List.map_cons, List.map_nil, List.mem_singleton] at hx'
    subst hx'
    exact (jsHas_eq_false_iff s.registry x).mp
      ((jsGet_eq_none_iff _ _).mp hget) hx

theorem runDeco_nodup {s : DecoState} (ops : List String)
    (hnd : (keysOf s.registry).Nodup) :
    (keysOf (runDeco s ops).registry).Nodup := by
  induction ops generalizing s with
  | nil => exact hnd
  | cons n ns ih => exact ih (getDeco_nodup n hnd)

/-- C9: starting from the empty registry, the registry never holds two
entries for one identifier, and a `getDecorationForIcon` call made at
any later point returns exactly the handle the first call for that
identifier returned (at most one handle is ever created per
identifier). -/
theorem claim9 :
    (∀ ops : List String, (keysOf (runDeco initDecoState ops).registry).Nodup) ∧
    (∀ ops₁ : List String, ∀ name : String, ∀ ops₂ : List String,
      (getDecorationForIcon
          (runDeco (getDecorationForIcon (runDeco initDecoState ops₁) name).2 ops₂)
          name).1 =
        (getDecorationForIcon (runDeco initDecoState ops₁) name).1) := by
  constructor
  · intro ops
    exact runDeco_nodup ops List.nodup_nil
  · intro ops₁ name ops₂
    have h1 := getDeco_get_after (runDeco initDecoState ops₁) name
    have h2 := runDeco_mono ops₂ h1
    rw [getDeco_lookup_some h2]

/-! ### The decoration updater (`updateDecorations`)

The host document is modelled by its language id and its lines; a
`setDecorations(handle, spans)` call is modelled as the pair it passes,
and one updater run returns the list of such calls in program order
together with the registry state after the run. -/

/-- The host document: language classification plus per-line text. -/
structure Document where
  languageId : String
  lines : List String
deriving DecidableEq, Repr

/-- The fixed allow-list of the source. -/
def allowedLangs : List String := ["html", "svelte", "javascriptreact", "typescriptreact"]

/-- One step of building `rangesByIcon`: push the span onto its icon's
bucket, creating the bucket at the end on first occurrence. -/
def addSpan (m : List (String × List MatchSpan)) (sp : MatchSpan) :
    List (String × List MatchSpan) :=
  if jsHas m sp.icon then
    m.map (fun q => if q.1 == sp.icon then (q.1, q.2 ++ [sp]) else q)
  else m ++ [(sp.icon, [sp])]

/-- `rangesByIcon`: spans grouped by icon name, buckets in first-occurrence
order, spans within a bucket in scan order. -/
def rangesByIcon (spans : List MatchSpan) : List (String × List MatchSpan) :=
  spans.foldl addSpan []

/-- The apply phase: for every icon group obtain its handle (creating it
if needed) and emit the `setDecorations(handle, spans)` call. -/
def applyAll : DecoState → List (String × List MatchSpan) →
    List (Nat × List MatchSpan) × DecoState
  | s, [] => ([], s)
  | s, g :: gs =>
    (((getDecorationForIcon s g.1).1, g.2) ::
        (applyAll (getDecorationForIcon s g.1).2 gs).1,
      (applyAll (getDecorationForIcon s g.1).2 gs).2)

/-- `updateDecorations`: for an unsupported language, clear every known
handle and stop; otherwise clear every known handle, scan the document,
group the spans, and apply each group's full replacement span-set. -/
def updateDecorations (s : DecoState) (doc : Document) :
    List (Nat × List MatchSpan) × DecoState :=
  if allowedLangs.contains doc.languageId = false then
    (s.registry.map (fun q => (q.2, ([] : List MatchSpan))), s)
  else
    (s.registry.map (fun q => (q.2, ([] : List MatchSpan))) ++
      (applyAll s (rangesByIcon (scanDoc doc.lines))).1,
     (applyAll s (rangesByIcon (scanDoc doc.lines))).2)

/-- Last-write-wins rendering of a sequence of `setDecorations` calls,
starting from a given previous state of one handle. -/
def renderedFrom (acc : Option (List MatchSpan))
    (calls : List (Nat × List MatchSpan)) (h : Nat) : Option (List MatchSpan) :=
  calls.foldl (fun a q => if q.1 == h then some q.2 else a) acc

/-- The span-set displayed for a handle after a sequence of
`setDecorations` calls (`none` when the handle was never touched). -/
def renderedSpans (calls : List (Nat × List MatchSpan)) (h : Nat) :
    Option (List MatchSpan) :=
  renderedFrom none calls h

/-- Whether some call in the list targets the handle. -/
def writes (calls : List (Nat × List MatchSpan)) (h : Nat) : Bool :=
  calls.any (fun q => q.1 == h)

/-- C6: for a document whose language is outside the four-element
allow-list, the updater applies an empty span-set to every handle in
the registry, applies nothing else (in particular no non-empty
span-set), and leaves the registry untouched. -/
theorem claim6 (s : DecoState) (doc : Document)
    (hlang : allowedLangs.contains doc.languageId = false) :
    updateDecorations s doc =
      (s.registry.map (fun q => (q.2, ([] : List MatchSpan))), s) ∧
    (∀ pr ∈ (updateDecorations s doc).1, pr.2 = ([] : List MatchSpan)) ∧
    (∀ q ∈ s.registry, (q.2, ([] : List MatchSpan)) ∈ (updateDecorations s doc).1) ∧
    (updateDecorations s doc).2 = s := by
  have heq : updateDecorations s doc =
      (s.registry.map (fun q => (q.2, ([] : List MatchSpan))), s) := by
    rw [updateDecorations, if_pos hlang]
  refine ⟨heq, fun pr hpr => ?_, fun q hq => ?_, by rw [heq]⟩
  · rw [heq] at hpr
    obtain ⟨q, -, rfl⟩ := List.mem_map.mp hpr
    rfl
  · rw [heq]
    exact List.mem_map.mpr ⟨q, hq, rfl⟩

theorem claim6_witness :
    allowedLangs.contains "plaintext" = false ∧
    (updateDecorations ⟨[("x", 0), ("search", 1)], 2⟩ ⟨"plaintext", ["ti ti-x"]⟩ =
      ([(0, []), (1, [])], ⟨[("x", 0), ("search", 1)], 2⟩) ∧
    (∀ pr ∈ (updateDecorations ⟨[("x", 0), ("search", 1)], 2⟩
        ⟨"plaintext", ["ti ti-x"]⟩).1, pr.2 = ([] : List MatchSpan)) ∧
    (∀ q ∈ [("x", 0), ("search", 1)], ((q : String × Nat).2, ([] : List MatchSpan)) ∈
      (updateDecorations ⟨[("x", 0), ("search", 1)], 2⟩ ⟨"plaintext", ["ti ti-x"]⟩).1) ∧
    (updateDecorations ⟨[("x", 0), ("search", 1)], 2⟩ ⟨"plaintext", ["ti ti-x"]⟩).2 =
      ⟨[("x", 0), ("search", 1)], 2⟩) :=
  ⟨by decide,
    claim6 ⟨[("x", 0), ("search", 1)], 2⟩ ⟨"plaintext", ["ti ti-x"]⟩ (by decide)⟩

/-! ### Lemmas for the idempotence of the updater -/

theorem applyAll_registry_mono {s : DecoState} {m : String} {h : Nat}
    (gs : List (String × List MatchSpan)) (hget : jsGet s.registry m = some h) :
    jsGet (applyAll s gs).2.registry m = some h := by
  induction gs generalizing s with
  | nil => exact hget
  | cons g gs ih => exact ih (getDeco_mono g.1 hget)

theorem applyAll_has {s : DecoState} (gs : List (String × List MatchSpan)) :
    ∀ g ∈ gs, ∃ h, jsGet (applyAll s gs).2.registry g.1 = some h := by
  induction gs generalizing s with
  | nil => intro g hg; exact absurd hg (List.not_mem_nil g)
  | cons g₀ gs ih =>
    intro g hg
    rcases List.mem_cons.mp hg with rfl | hg'
    · exact ⟨(getDecorationForIcon s g.1).1,
        applyAll_registry_mono gs (getDeco_get_after s g.1)⟩
    · exact ih g hg'

theorem applyAll_pairs_eq {s : DecoState} (gs : List (String × List MatchSpan)) :
    (applyAll s gs).1 =
      gs.map (fun g => ((jsGet (applyAll s gs).2.registry g.1).getD 0, g.2)) := by
  induction gs generalizing s with
  | nil => rfl
  | cons g gs ih =>
    show ((getDecorationForIcon s g.1).1, g.2) ::
        (applyAll (getDecorationForIcon s g.1).2 gs).1 = _
    rw [ih]
    have hh : jsGet (applyAll (getDecorationForIcon s g.1).2 gs).2.registry g.1 =
        some (getDecorationForIcon s g.1).1 :=
      applyAll_registry_mono gs (getDeco_get_after s g.1)
    show _ = ((jsGet (applyAll (getDecorationForIcon s g.1).2 gs).2.registry g.1).getD 0,
        g.2) :: _
    rw [hh]
    rfl

theorem applyAll_stable {s : DecoState} (gs : List (String × List MatchSpan))
    (hall : ∀ g ∈ gs, ∃ h, jsGet s.registry g.1 = some h) :
    applyAll s gs = (gs.map (fun g => ((jsGet s.registry g.1).getD 0, g.2)), s) := by
  induction gs with
  | nil => rfl
  | cons g gs ih =>
    obtain ⟨h, hh⟩ := hall g (List.mem_cons_self g gs)
    have hdeco := getDeco_lookup_some hh
    show (((getDecorationForIcon s g.1).1, g.2) ::
        (applyAll (getDecorationForIcon s g.1).2 gs).1,
      (applyAll (getDecorationForIcon s g.1).2 gs).2) = _
    rw [hdeco, ih (fun g' hg' => hall g' (List.mem_cons_of_mem g hg'))]
    rw [List.map_cons, hh]
    rfl

theorem applyAll_registry_sub {s : DecoState} (gs : List (String × List MatchSpan)) :
    ∀ q ∈ (applyAll s gs).2.registry,
      q ∈ s.registry ∨ q.1 ∈ gs.map Prod.fst := by
  induction gs generalizing s with
  | nil => intro q hq; exact Or.inl hq
  | cons g gs ih =>
    intro q hq
    have hq' := ih q hq
    rcases hq' with hq' | hq'
    · cases hget : jsGet s.registry g.1 with
      | some h =>
        rw [getDeco_lookup_some hget] at hq'
        exact Or.inl hq'
      | none =>
        rw [getDeco_lookup_none hget] at hq'
        rcases List.mem_append.mp hq' with hmem | hmem
        · exact Or.inl hmem
        · rw [List.mem_singleton] at hmem
          subst hmem
          exact Or.inr (by simp)
    · exact Or.inr (by simp [hq'])

theorem applyAll_nodup {s : DecoState} (gs : List (String × List MatchSpan))
    (hnd : (keysOf s.registry).Nodup) :
    (keysOf (applyAll s gs).2.registry).Nodup := by
  induction gs generalizing s with
  | nil => exact hnd
  | cons g gs ih => exact ih (getDeco_nodup g.1 hnd)

theorem mem_get_of_nodup {α : Type} {m : JMap α} {q : String × α}
    (hnd : (keysOf m).Nodup) (hq : q ∈ m) : jsGet m q.1 = some q.2 := by
  induction m with
  | nil => exact absurd hq (List.not_mem_nil q)
  | cons p t ih =>
    rw [keysOf, List.map_cons, List.nodup_cons] at hnd
    rcases List.mem_cons.mp hq with rfl | hq'
    · rw [jsGet, List.find?_cons_of_pos _ (by simp)]
      rfl
    · have hne : (p.1 == q.1) = false := by
        have : q.1 ∈ keysOf t := List.mem_map.mpr ⟨q, hq', rfl⟩
        have hpq : p.1 ≠ q.1 := fun he => hnd.1 (he ▸ this)
        simpa using hpq
      rw [jsGet, List.find?_cons_of_neg _ (by simp [hne])]
      exact ih hnd.2 hq'

theorem renderedFrom_append (acc : Option (List MatchSpan))
    (a b : List (Nat × List MatchSpan)) (h : Nat) :
    renderedFrom acc (a ++ b) h = renderedFrom (renderedFrom acc a h) b h :=
  List.foldl_append _ _ a b

theorem renderedFrom_of_not_writes {calls : List (Nat × List MatchSpan)} {h : Nat}
    (acc : Option (List MatchSpan)) (hw : writes calls h = false) :
    renderedFrom acc calls h = acc := by
  induction calls generalizing acc with
  | nil => rfl
  | cons q t ih =>
    rw [writes, List.any_cons, Bool.or_eq_false_iff] at hw
    rw [renderedFrom, List.foldl_cons]
    rw [show (if q.1 == h then some q.2 else acc) = acc from by rw [hw.1]; rfl]
    exact ih acc hw.2

theorem renderedFrom_of_writes {calls : List (Nat × List MatchSpan)} {h : Nat}
    (acc : Option (List MatchSpan)) (hw : writes calls h = true) :
    renderedFrom acc calls h = renderedSpans calls h := by
  induction calls generalizing acc with
  | nil => simp [writes] at hw
  | cons q t ih =>
    rw [writes, List.any_cons, Bool.or_eq_true] at hw
    cases hwt : writes t h with
    | true =>
      rw [renderedFrom, List.foldl_cons, renderedSpans, renderedFrom, List.foldl_cons]
      rw [show List.foldl (fun a q => if q.1 == h then some q.2 else a)
          (if q.1 == h then some q.2 else acc) t =
        renderedFrom (if q.1 == h then some q.2 else acc) t h from rfl]
      rw [show List.foldl (fun a q => if q.1 == h then some q.2 else a)
          (if q.1 == h then some q.2 else none) t =
        renderedFrom (if q.1 == h then some q.2 else none) t h from rfl]
      exact (ih (if q.1 == h then some q.2 else acc) hwt).trans
        (ih (if q.1 == h then some q.2 else none) hwt).symm
    | false =>
      have hq : (q.1 == h) = true := by
        rcases hw with hw | hw
        · exact hw
        · rw [writes] at hwt; rw [hwt] at hw; exact Bool.noConfusion hw
      rw [renderedFrom, List.foldl_cons, renderedSpans, renderedFrom, List.foldl_cons]
      rw [hq]
      simp

theorem rendered_append_writes {a b : List (Nat × List MatchSpan)} {h : Nat}
    (hw : writes b h = true) :
    renderedSpans (a ++ b) h = renderedSpans b h := by
  rw [renderedSpans, renderedFrom_append, renderedFrom_of_writes _ hw]

theorem rendered_append_not {a b : List (Nat × List MatchSpan)} {h : Nat}
    (hw : writes b h = false) :
    renderedSpans (a ++ b) h = renderedSpans a h := by
  rw [renderedSpans, renderedFrom_append, renderedFrom_of_not_writes _ hw]
  rfl

theorem rendered_const {calls : List (Nat × List MatchSpan)} {h : Nat}
    {v : List MatchSpan} (hv : ∀ q ∈ calls, q.2 = v)
    (hw : writes calls h = true) : renderedSpans calls h = some v := by
  induction calls with
  | nil => simp [writes] at hw
  | cons q t ih =>
    rw [writes, List.any_cons, Bool.or_eq_true] at hw
    cases hwt : writes t h with
    | true =>
      have := ih (fun q' hq' => hv q' (List.mem_cons_of_mem q hq')) hwt
      rw [renderedSpans, renderedFrom, List.foldl_cons]
      rw [show List.foldl (fun a q => if q.1 == h then some q.2 else a)
          (if q.1 == h then some q.2 else none) t =
        renderedFrom (if q.1 == h then some q.2 else none) t h from rfl]
      rw [renderedFrom_of_writes _ hwt]
      exact this
    | false =>
      have hq : (q.1 == h) = true := by
        rcases hw with hw | hw
        · exact hw
        · rw [writes] at hwt; rw [hwt] at hw; exact Bool.noConfusion hw
      rw [renderedSpans, renderedFrom, List.foldl_cons, hq]
      simp only [if_true]
      rw [show List.foldl (fun a q => if q.1 == h then some q.2 else a)
          (some q.2) t = renderedFrom (some q.2) t h from rfl]
      rw [renderedFrom_of_not_writes _ hwt, hv q (List.mem_cons_self q t)]

theorem writes_iff (calls : List (Nat × List MatchSpan)) (h : Nat) :
    writes calls h = true ↔ ∃ q ∈ calls, q.1 = h := by
  rw [writes, List.any_eq_true]
  constructor
  · rintro ⟨q, hq, hbe⟩
    exact ⟨q, hq, beq_iff_eq.mp hbe⟩
  · rintro ⟨q, hq, hbe⟩
    exact ⟨q, hq, beq_iff_eq.mpr hbe⟩

theorem clears_filter_nil (r : JMap Nat) :
    (r.map (fun q => (q.2, ([] : List MatchSpan)))).filter
      (fun q => !q.2.isEmpty) = [] := by
  rw [List.filter_eq_nil_iff]
  intro a ha
  obtain ⟨q, -, rfl⟩ := List.mem_map.mp ha
  simp

theorem writes_append (a b : List (Nat × List MatchSpan)) (h : Nat) :
    writes (a ++ b) h = (writes a h || writes b h) := List.any_append

/-- The second pass over the same groups creates nothing: every group's
icon is already registered, so the registry is unchanged and the very
same (handle, span-set) pairs are emitted again. -/
theorem applyAll_twice (s₀ : DecoState) (G : List (String × List MatchSpan)) :
    applyAll (applyAll s₀ G).2 G = ((applyAll s₀ G).1, (applyAll s₀ G).2) := by
  have hstable := @applyAll_stable (applyAll s₀ G).2 G
    (fun g hg => applyAll_has G g hg)
  rw [hstable, ← applyAll_pairs_eq]

/-- C7: running `updateDecorations` twice in succession on an unchanged
document leaves the registry as after the first run, applies in its
apply-phase exactly the same non-empty (handle, span-set) pairs, and
the final rendered span-set of every handle equals the one after a
single run. -/
theorem claim7 (s₀ : DecoState) (doc : Document)
    (hnd : (keysOf s₀.registry).Nodup) :
    (updateDecorations (updateDecorations s₀ doc).2 doc).2 =
      (updateDecorations s₀ doc).2 ∧
    (updateDecorations (updateDecorations s₀ doc).2 doc).1.filter
        (fun q => !q.2.isEmpty) =
      (updateDecorations s₀ doc).1.filter (fun q => !q.2.isEmpty) ∧
    (∀ h, renderedSpans ((updateDecorations s₀ doc).1 ++
        (updateDecorations (updateDecorations s₀ doc).2 doc).1) h =
      renderedSpans ((updateDecorations s₀ doc).1) h) := by
  by_cases hlang : allowedLangs.contains doc.languageId = false
  · have heq : updateDecorations s₀ doc =
        (s₀.registry.map (fun q => (q.2, ([] : List MatchSpan))), s₀) := by
      rw [updateDecorations, if_pos hlang]
    have h2 : (updateDecorations s₀ doc).2 = s₀ := by rw [heq]
    refine ⟨by rw [h2, heq], by rw [h2, heq], fun h => ?_⟩
    rw [h2, heq]
    cases hw : writes (s₀.registry.map (fun q => (q.2, ([] : List MatchSpan)))) h with
    | true => rw [rendered_append_writes hw]
    | false => rw [rendered_append_not hw]
  · have hlang' : ¬ (allowedLangs.contains doc.languageId = false) := hlang
    have heq1 : updateDecorations s₀ doc =
        (s₀.registry.map (fun q => (q.2, ([] : List MatchSpan))) ++
          (applyAll s₀ (rangesByIcon (scanDoc doc.lines))).1,
         (applyAll s₀ (rangesByIcon (scanDoc doc.lines))).2) := by
      rw [updateDecorations, if_neg hlang']
    have h2 : (updateDecorations s₀ doc).2 =
        (applyAll s₀ (rangesByIcon (scanDoc doc.lines))).2 := by rw [heq1]
    have heq2 : updateDecorations (updateDecorations s₀ doc).2 doc =
        ((applyAll s₀ (rangesByIcon (scanDoc doc.lines))).2.registry.map
            (fun q => (q.2, ([] : List MatchSpan))) ++
          (applyAll s₀ (rangesByIcon (scanDoc doc.lines))).1,
         (applyAll s₀ (rangesByIcon (scanDoc doc.lines))).2) := by
      rw [h2, updateDecorations, if_neg hlang', applyAll_twice]
    have hnd₁ : (keysOf (applyAll s₀ (rangesByIcon (scanDoc doc.lines))).2.registry).Nodup :=
      applyAll_nodup _ hnd
    refine ⟨by rw [heq2, heq1], ?_, fun h => ?_⟩
    · rw [heq2, heq1]
      show ((applyAll s₀ (rangesByIcon (scanDoc doc.lines))).2.registry.map
            (fun q => (q.2, ([] : List MatchSpan))) ++
          (applyAll s₀ (rangesByIcon (scanDoc doc.lines))).1).filter
            (fun q => !q.2.isEmpty) = _
      rw [List.filter_append, List.filter_append, clears_filter_nil, clears_filter_nil]
    · rw [heq2, heq1]
      show renderedSpans
          ((s₀.registry.map (fun q => (q.2, ([] : List MatchSpan))) ++
            (applyAll s₀ (rangesByIcon (scanDoc doc.lines))).1) ++
           ((applyAll s₀ (rangesByIcon (scanDoc doc.lines))).2.registry.map
              (fun q => (q.2, ([] : List MatchSpan))) ++
            (applyAll s₀ (rangesByIcon (scanDoc doc.lines))).1)) h = _
      cases hwP : writes (applyAll s₀ (rangesByIcon (scanDoc doc.lines))).1 h with
      | true =>
        rw [rendered_append_writes (show writes
            ((applyAll s₀ (rangesByIcon (scanDoc doc.lines))).2.registry.map
                (fun q => (q.2, ([] : List MatchSpan))) ++
              (applyAll s₀ (rangesByIcon (scanDoc doc.lines))).1) h = true from by
          rw [writes_append, hwP, Bool.or_true])]
        rw [rendered_append_writes hwP, rendered_append_writes hwP]
      | false =>
        cases hwC : writes ((applyAll s₀ (rangesByIcon (scanDoc doc.lines))).2.registry.map
            (fun q => (q.2, ([] : List MatchSpan)))) h with
        | true =>
          rw [rendered_append_writes (show writes
              ((applyAll s₀ (rangesByIcon (scanDoc doc.lines))).2.registry.map
                  (fun q => (q.2, ([] : List MatchSpan))) ++
                (applyAll s₀ (rangesByIcon (scanDoc doc.lines))).1) h = true from by
            rw [writes_append, hwC, Bool.true_or])]
          rw [rendered_append_not hwP, rendered_append_not hwP]
          have hC₁ : renderedSpans
              ((applyAll s₀ (rangesByIcon (scanDoc doc.lines))).2.registry.map
                (fun q => (q.2, ([] : List MatchSpan)))) h = some [] :=
            rendered_const (fun q hq => by
              obtain ⟨e, -, rfl⟩ := List.mem_map.mp hq
              rfl) hwC
          have hwC₀ : writes (s₀.registry.map
              (fun q => (q.2, ([] : List MatchSpan)))) h = true := by
            obtain ⟨q, hq, hq1⟩ := (writes_iff _ h).mp hwC
            obtain ⟨e, he, rfl⟩ := List.mem_map.mp hq
            rcases applyAll_registry_sub _ e he with hin | hkeys
            · exact (writes_iff _ h).mpr ⟨(e.2, []), List.mem_map.mpr ⟨e, hin, rfl⟩, hq1⟩
            · exfalso
              obtain ⟨g, hg, hge⟩ := List.mem_map.mp hkeys
              have hgete : jsGet (applyAll s₀
                  (rangesByIcon (scanDoc doc.lines))).2.registry e.1 = some e.2 :=
                mem_get_of_nodup hnd₁ he
              have hpairmem : ((jsGet (applyAll s₀
                  (rangesByIcon (scanDoc doc.lines))).2.registry g.1).getD 0, g.2) ∈
                  (applyAll s₀ (rangesByIcon (scanDoc doc.lines))).1 := by
                rw [applyAll_pairs_eq]
                exact List.mem_map.mpr ⟨g, hg, rfl⟩
              rw [hge, hgete] at hpairmem
              have : writes (applyAll s₀ (rangesByIcon (scanDoc doc.lines))).1 h = true :=
                (writes_iff _ h).mpr ⟨(e.2, g.2), hpairmem, hq1⟩
              rw [hwP] at this
              exact Bool.noConfusion this
          have hC₀ : renderedSpans (s₀.registry.map
              (fun q => (q.2, ([] : List MatchSpan)))) h = some [] :=
            rendered_const (fun q hq => by
              obtain ⟨e, -, rfl⟩ := List.mem_map.mp hq
              rfl) hwC₀
          rw [hC₁, hC₀]
        | false =>
          rw [rendered_append_not (show writes
              ((applyAll s₀ (rangesByIcon (scanDoc doc.lines))).2.registry.map
                  (fun q => (q.2, ([] : List MatchSpan))) ++
                (applyAll s₀ (rangesByIcon (scanDoc doc.lines))).1) h = false from by
            rw [writes_append, hwC, hwP]
            rfl)]

theorem claim7_witness :
    (keysOf (initDecoState).registry).Nodup ∧
    ((updateDecorations (updateDecorations initDecoState ⟨"html", ["ti ti-x"]⟩).2
        ⟨"html", ["ti ti-x"]⟩).2 =
      (updateDecorations initDecoState ⟨"html", ["ti ti-x"]⟩).2 ∧
    (updateDecorations (updateDecorations initDecoState ⟨"html", ["ti ti-x"]⟩).2
        ⟨"html", ["ti ti-x"]⟩).1.filter (fun q => !q.2.isEmpty) =
      (updateDecorations initDecoState ⟨"html", ["ti ti-x"]⟩).1.filter
        (fun q => !q.2.isEmpty) ∧
    (∀ h, renderedSpans ((updateDecorations initDecoState ⟨"html", ["ti ti-x"]⟩).1 ++
        (updateDecorations (updateDecorations initDecoState ⟨"html", ["ti ti-x"]⟩).2
          ⟨"html", ["ti ti-x"]⟩).1) h =
      renderedSpans ((updateDecorations initDecoState ⟨"html", ["ti ti-x"]⟩).1) h)) :=
  ⟨by decide, claim7 initDecoState ⟨"html", ["ti ti-x"]⟩ (by decide)⟩

/-! ### Catalog loader (`loadIconFiles`) and completion provider

The asset directory read (`fs.readdirSync`) is abstracted as an
optional listing: `none` models a missing/unreadable directory, whose
thrown error is modelled by `Except.error`.  The module-level
`iconFilesCache` memo is threaded explicitly. -/

/-- An icon catalog entry: name (file stem) and asset location. -/
structure IconFile where
  name : String
  uri : String
deriving DecidableEq, Repr

/-- Node `path.basename(file, ".svg")` for a plain directory entry: the
suffix is stripped unless the whole name equals it. -/
def basenameSvg (file : String) : String :=
  if file = ".svg" then file
  else String.mk (file.toList.take (file.toList.length - 4))

/-- `loadIconFiles`: return the memoized catalog when present;
otherwise list the asset directory — a thrown `readdirSync` error
propagates, and nothing is memoized — keep the `.svg` entries, and
memoize.  The result pairs the returned catalog with the memo state
after the call. -/
def loadIconFiles (listing : Option (List String))
    (memo : Option (List IconFile)) :
    Except Unit (List IconFile × Option (List IconFile)) :=
  match memo with
  | some files => .ok (files, some files)
  | none =>
    match listing with
    | none => .error ()
    | some entries =>
      let files := (entries.filter (fun f => f.endsWith ".svg")).map
        (fun file => ⟨basenameSvg file, "media/icons/" ++ file⟩)
      .ok (files, some files)

/-- A produced suggestion (label, insert text, detail). -/
structure CompletionItem where
  label : String
  insertText : String
  detail : String
deriving DecidableEq, Repr

/-- Substring test on character lists: the pattern is a prefix of some
suffix. -/
def containsAt : List Char → List Char → Bool
  | pat, [] => pat.isEmpty
  | pat, c :: rest => pat.isPrefixOf (c :: rest) || containsAt pat rest

/-- JavaScript `String.prototype.includes`. -/
def strContains (s pat : String) : Bool := containsAt pat.toList s.toList

/-- `provideCompletionItems`: lines without the `"ti "` marker or
without a word range at the cursor yield no suggestions (catalog
untouched); otherwise the catalog is loaded with NO try/catch around
it, so a directory-read failure propagates out of the provider. -/
def provideCompletionItems (listing : Option (List String))
    (memo : Option (List IconFile)) (lineText : String) (hasWordRange : Bool) :
    Except Unit (Option (List CompletionItem) × Option (List IconFile)) :=
  if strContains lineText "ti " = false then .ok (none, memo)
  else if hasWordRange = false then .ok (none, memo)
  else
    match loadIconFiles listing memo with
    | .error e => .error e
    | .ok (icons, memo') =>
      .ok (some (icons.map (fun icon =>
        ⟨"ti-" ++ icon.name, "ti-" ++ icon.name, icon.name⟩)), memo')

/-- C8: counterexample to the claim as stated.  With the asset directory
unreadable at first load, a suggestion-list request on a line containing
the marker does NOT return a degraded result: `loadIconFiles` is called
with no try/catch around it, so the directory-read error propagates out
of `provideCompletionItems` to the host. -/
theorem claim8_counterexample :
    provideCompletionItems none none "<i class=\"ti ti-\">" true =
      Except.error () := rfl

/-- C8 (amended): the first-load failure of the catalog is NOT caught
inside this system: `loadIconFiles` throws, a suggestion-list request
that reaches the catalog load propagates the error to the host, and
nothing is memoized (only requests on lines without the marker degrade
to an empty result without touching the directory). -/
theorem claim8_amended (lineText : String)
    (hline : strContains lineText "ti " = true) :
    loadIconFiles none none = Except.error () ∧
    provideCompletionItems none none lineText true = Except.error () ∧
    (∀ lt : String, strContains lt "ti " = false →
      provideCompletionItems none none lt true = Except.ok (none, none)) := by
  refine ⟨rfl, ?_, fun lt hlt => ?_⟩
  · rw [provideCompletionItems, if_neg (by simp [hline]), if_neg (by simp)]
    rfl
  · rw [provideCompletionItems, if_pos hlt]

theorem claim8_witness :
    strContains "<i class=\"ti ti-\">" "ti " = true ∧
    (loadIconFiles none none = Except.error () ∧
    provideCompletionItems none none "<i class=\"ti ti-\">" true = Except.error () ∧
    (∀ lt : String, strContains lt "ti " = false →
      provideCompletionItems none none lt true = Except.ok (none, none))) :=
  ⟨by decide, claim8_amended "<i class=\"ti ti-\">" (by decide)⟩

end Tabler

